import Mathlib

/-!
Verification of the fjbucketizer / gu pipeline (mgijax/fjbucketizer).

The repository holds two versions of the same GFF bucketizing pipeline
(gu.py, the current one, and fjbucketizer.py, the legacy one) plus the
helper guUtil.py.  The pipelines drive external relational primitives
(TA, TB, TD, TF, TJ, TP, TS, FJ imported from TableTools, which is not
part of this repository's sources); wherever a claim depends on such a
primitive, the primitive is modelled from the spec, and the doc comment
of the corresponding definition says so.  Everything else is translated
directly from gu.py, fjbucketizer.py and guUtil.py.

Python's `re` module is modelled by a small executable matcher over an
abstract syntax of the regular-expression fragment actually used by the
pipeline (character classes, literals, option, greedy repetition, one
capture group), with case-insensitive character comparison mirroring the
`re.I` flag that guUtil.extractID always passes.
-/

/-! ### Character utilities -/

/-- Lower-casing of a string, used to model Python's `str.lower` in the
type filters and the case-insensitive regex matching of `re.I`. -/
def strLower (s : String) : String := String.mk (s.toList.map Char.toLower)

/-- Case-insensitive character comparison (models matching under `re.I`). -/
def ciChar (a b : Char) : Bool := a.toLower == b.toLower

/-- Does character `c` match the (possibly negated) character class `cs`?
Comparison is case-insensitive, mirroring `re.I`. -/
def clsMatch (cs : List Char) (neg : Bool) (c : Char) : Bool :=
  (cs.any fun a => ciChar a c) != neg

/-! ### A small regex engine

`RE` is the fragment of Python regular expressions used by the pipeline's
patterns: character classes `[...]`/`[^...]`, concatenation, alternation,
`?` (greedy option) and `*` (greedy repetition of a class).  `+` is
encoded as class-then-star.  A `Pattern` is a regex with one marked
capture group (the `(?P<id>...)` group that guUtil.extractID reads):
the part before the group, the group itself, and the part after it. -/

inductive RE where
  | eps : RE
  | cls : List Char → Bool → RE
  | cat : RE → RE → RE
  | alt : RE → RE → RE
  | opt : RE → RE
  | rep : List Char → Bool → RE
deriving DecidableEq

/-- Greedy matching of `[cs]*` (or `[^cs]*`): all splits, longest first.
Each result is (consumed characters, remaining input). -/
def repM (cs : List Char) (neg : Bool) : List Char → List (List Char × List Char)
  | [] => [([], [])]
  | c :: t =>
      if clsMatch cs neg c then
        (repM cs neg t).map (fun pr => (c :: pr.1, pr.2)) ++ [([], c :: t)]
      else [([], c :: t)]

/-- All ways a regex can consume a prefix of the input, in backtracking
priority order (greedy first, left alternative first).  Each result is
(consumed characters, remaining input). -/
def matchRE : RE → List Char → List (List Char × List Char)
  | RE.eps, s => [([], s)]
  | RE.cls cs neg, s =>
      match s with
      | [] => []
      | c :: t => if clsMatch cs neg c then [([c], t)] else []
  | RE.cat a b, s =>
      (matchRE a s).flatMap fun pr =>
        (matchRE b pr.2).map fun qr => (pr.1 ++ qr.1, qr.2)
  | RE.alt a b, s => matchRE a s ++ matchRE b s
  | RE.opt a, s => matchRE a s ++ [([], s)]
  | RE.rep cs neg, s => repM cs neg s

/-- A regex with one marked capture group: `pre (?P<id> grp) post`. -/
structure Pattern where
  pre : RE
  grp : RE
  post : RE
deriving DecidableEq

/-- After the group has consumed `pr.1`, accept if the post part can match
on the rest; the captured substring is `pr.1`. -/
def postOk (p : Pattern) (pr : List Char × List Char) : Option (List Char) :=
  if (matchRE p.post pr.2).isEmpty then none else some pr.1

/-- Try the capture group at the point where the pre part stopped. -/
def grpStep (p : Pattern) (pr : List Char × List Char) : Option (List Char) :=
  (matchRE p.grp pr.2).findSome? (postOk p)

/-- Match the whole pattern at the start of `s`, returning the characters
captured by the group on success. -/
def matchHere (p : Pattern) (s : List Char) : Option (List Char) :=
  (matchRE p.pre s).findSome? (grpStep p)

/-- Leftmost search, modelling `re.search`: try each start position from
the left, returning the first successful match's captured group. -/
def searchPat (p : Pattern) : List Char → Option (List Char)
  | [] => matchHere p []
  | c :: t => (matchHere p (c :: t)).orElse (fun _ => searchPat p t)

/-- Translation of guUtil.extractID: search the pattern in `col9`
case-insensitively; on a match return the text captured by the `id`
group, otherwise return `col9` unchanged. -/
def extractID (patt : Pattern) (col9 : String) : String :=
  match searchPat patt col9.toList with
  | some cap => String.mk cap
  | none => col9

/-- A single literal character as a regex. -/
def chrRE (c : Char) : RE := RE.cls [c] false

/-- A literal string as a regex. -/
def strRE (s : String) : RE :=
  s.toList.foldr (fun c r => RE.cat (RE.cls [c] false) r) RE.eps

/-- `[cs]+` (or `[^cs]+`), encoded as class-then-star. -/
def plusRE (cs : List Char) (neg : Bool) : RE := RE.cat (RE.cls cs neg) (RE.rep cs neg)

/-- The ten decimal digit characters. -/
def digitChars : List Char := ['0', '1', '2', '3', '4', '5', '6', '7', '8', '9']

/-- The spec's example pattern `(?P<id>FOO[0-9]+)` as a `Pattern`. -/
def fooPat : Pattern :=
  { pre := RE.eps, grp := RE.cat (strRE "FOO") (plusRE digitChars false), post := RE.eps }

/-! ### Facts about the matcher -/

theorem repM_consumed (cs : List Char) (neg : Bool) :
    ∀ s : List Char, ∀ pr ∈ repM cs neg s, pr.1 ++ pr.2 = s := by
  intro s
  induction s with
  | nil =>
      intro pr h
      have e : repM cs neg [] = [([], [])] := rfl
      rw [e, List.mem_singleton] at h
      subst h
      rfl
  | cons c t ih =>
      intro pr h
      have e : repM cs neg (c :: t) =
          if clsMatch cs neg c then
            (repM cs neg t).map (fun pr => (c :: pr.1, pr.2)) ++ [([], c :: t)]
          else [([], c :: t)] := rfl
      rw [e] at h
      by_cases hc : clsMatch cs neg c = true
      · rw [if_pos hc, List.mem_append, List.mem_map] at h
        rcases h with ⟨qr, hqr, rfl⟩ | h
        · have hq := ih qr hqr
          rw [show ((c :: qr.1, qr.2) : List Char × List Char).1 = c :: qr.1 from rfl]
          rw [List.cons_append, hq]
        · rw [List.mem_singleton] at h
          subst h
          rfl
      · rw [if_neg hc, List.mem_singleton] at h
        subst h
        rfl

theorem matchRE_consumed (re : RE) :
    ∀ s : List Char, ∀ pr ∈ matchRE re s, pr.1 ++ pr.2 = s := by
  induction re with
  | eps =>
      intro s pr h
      have e : matchRE RE.eps s = [([], s)] := rfl
      rw [e, List.mem_singleton] at h
      subst h
      rfl
  | cls cs neg =>
      intro s pr h
      cases s with
      | nil =>
          have e : matchRE (RE.cls cs neg) [] = [] := rfl
          rw [e] at h
          exact absurd h (List.not_mem_nil pr)
      | cons c t =>
          have e : matchRE (RE.cls cs neg) (c :: t) =
              if clsMatch cs neg c then [([c], t)] else [] := rfl
          rw [e] at h
          by_cases hc : clsMatch cs neg c = true
          · rw [if_pos hc, List.mem_singleton] at h
            subst h
            rfl
          · rw [if_neg hc] at h
            exact absurd h (List.not_mem_nil pr)
  | cat a b iha ihb =>
      intro s pr h
      simp only [matchRE, List.mem_flatMap, List.mem_map] at h
      rcases h with ⟨qr, hqr, rr, hrr, rfl⟩
      have h1 := iha s qr hqr
      have h2 := ihb qr.2 rr hrr
      simp only []
      rw [List.append_assoc, h2, h1]
  | alt a b iha ihb =>
      intro s pr h
      simp only [matchRE, List.mem_append] at h
      rcases h with h | h
      · exact iha s pr h
      · exact ihb s pr h
  | opt a iha =>
      intro s pr h
      simp only [matchRE, List.mem_append, List.mem_singleton] at h
      rcases h with h | h
      · exact iha s pr h
      · simp [h]
  | rep cs neg => exact repM_consumed cs neg

/-- Case-insensitive equality of character lists. -/
def ciEqL (s t : List Char) : Prop := s.map Char.toLower = t.map Char.toLower

/-- Case-insensitive relatedness of matcher results. -/
def pairCI (pr qr : List Char × List Char) : Prop := ciEqL pr.1 qr.1 ∧ ciEqL pr.2 qr.2

theorem ciEqL_nil {t : List Char} (h : ciEqL [] t) : t = [] := by
  unfold ciEqL at h
  cases t with
  | nil => rfl
  | cons d t' => simp at h

theorem ciEqL_cons {c : Char} {s t : List Char} (h : ciEqL (c :: s) t) :
    ∃ d t', t = d :: t' ∧ c.toLower = d.toLower ∧ ciEqL s t' := by
  unfold ciEqL at h
  cases t with
  | nil => simp at h
  | cons d t' =>
      simp only [List.map_cons, List.cons.injEq] at h
      exact ⟨d, t', rfl, h.1, h.2⟩

theorem clsMatch_ci {cs : List Char} {neg : Bool} {c d : Char}
    (h : c.toLower = d.toLower) : clsMatch cs neg c = clsMatch cs neg d := by
  unfold clsMatch ciChar
  rw [h]

theorem ciEqL_cons_intro {c d : Char} {s t : List Char}
    (h1 : c.toLower = d.toLower) (h2 : ciEqL s t) : ciEqL (c :: s) (d :: t) := by
  unfold ciEqL at h2 ⊢
  rw [List.map_cons, List.map_cons, h1, h2]

theorem ciEqL_append {s t u v : List Char} (h1 : ciEqL s u) (h2 : ciEqL t v) :
    ciEqL (s ++ t) (u ++ v) := by
  unfold ciEqL at h1 h2 ⊢
  rw [List.map_append, List.map_append, h1, h2]

theorem fa2_append {α β : Type} {R : α → β → Prop} {l₁ l₂ : List α} {m₁ m₂ : List β}
    (h₁ : List.Forall₂ R l₁ m₁) (h₂ : List.Forall₂ R l₂ m₂) :
    List.Forall₂ R (l₁ ++ l₂) (m₁ ++ m₂) := by
  induction h₁ with
  | nil => exact h₂
  | cons h _ ih => exact List.Forall₂.cons h ih

theorem fa2_map {α β γ δ : Type} {R : α → β → Prop} {S : γ → δ → Prop}
    {l : List α} {m : List β} (h : List.Forall₂ R l m) {f : α → γ} {g : β → δ}
    (hfg : ∀ a b, R a b → S (f a) (g b)) : List.Forall₂ S (l.map f) (m.map g) := by
  induction h with
  | nil => exact List.Forall₂.nil
  | cons h _ ih => exact List.Forall₂.cons (hfg _ _ h) ih

theorem fa2_flatMap {α β γ δ : Type} {R : α → β → Prop} {S : γ → δ → Prop}
    {l : List α} {m : List β} (h : List.Forall₂ R l m) {f : α → List γ} {g : β → List δ}
    (hfg : ∀ a b, R a b → List.Forall₂ S (f a) (g b)) :
    List.Forall₂ S (l.flatMap f) (m.flatMap g) := by
  induction h with
  | nil => exact List.Forall₂.nil
  | cons h _ ih =>
      simp only [List.flatMap_cons]
      exact fa2_append (hfg _ _ h) ih

theorem fa2_any {α β : Type} {R : α → β → Prop} {l : List α} {m : List β}
    (h : List.Forall₂ R l m) {p : α → Bool} {q : β → Bool}
    (hpq : ∀ a b, R a b → p a = q b) : l.any p = m.any q := by
  induction h with
  | nil => rfl
  | cons h _ ih => simp only [List.any_cons, hpq _ _ h, ih]

theorem isEmpty_of_length_eq {α β : Type} {l : List α} {m : List β}
    (h : l.length = m.length) : l.isEmpty = m.isEmpty := by
  cases l <;> cases m <;> simp_all

theorem repM_ci (cs : List Char) (neg : Bool) :
    ∀ s t : List Char, ciEqL s t →
      List.Forall₂ pairCI (repM cs neg s) (repM cs neg t) := by
  intro s
  induction s with
  | nil =>
      intro t ht
      rw [ciEqL_nil ht]
      simp only [repM]
      exact List.Forall₂.cons ⟨rfl, rfl⟩ List.Forall₂.nil
  | cons c s' ih =>
      intro t ht
      obtain ⟨d, t', rfl, hcd, hst⟩ := ciEqL_cons ht
      simp only [repM, clsMatch_ci hcd]
      by_cases hc : clsMatch cs neg d
      · simp only [hc, if_pos]
        refine fa2_append (fa2_map (ih t' hst) ?_) ?_
        · intro a b hab
          exact ⟨ciEqL_cons_intro hcd hab.1, hab.2⟩
        · exact List.Forall₂.cons ⟨rfl, ciEqL_cons_intro hcd hst⟩ List.Forall₂.nil
      · simp only [hc, if_neg]
        exact List.Forall₂.cons ⟨rfl, ciEqL_cons_intro hcd hst⟩ List.Forall₂.nil

theorem matchRE_ci (re : RE) :
    ∀ s t : List Char, ciEqL s t →
      List.Forall₂ pairCI (matchRE re s) (matchRE re t) := by
  induction re with
  | eps =>
      intro s t h
      exact List.Forall₂.cons ⟨rfl, h⟩ List.Forall₂.nil
  | cls cs neg =>
      intro s t h
      cases s with
      | nil => rw [ciEqL_nil h]; exact List.Forall₂.nil
      | cons c s' =>
          obtain ⟨d, t', rfl, hcd, hst⟩ := ciEqL_cons h
          simp only [matchRE, clsMatch_ci hcd]
          by_cases hc : clsMatch cs neg d
          · simp only [hc, if_pos]
            exact List.Forall₂.cons ⟨ciEqL_cons_intro hcd rfl, hst⟩ List.Forall₂.nil
          · simp only [hc, if_neg]; exact List.Forall₂.nil
  | cat a b iha ihb =>
      intro s t h
      simp only [matchRE]
      refine fa2_flatMap (iha s t h) ?_
      intro pr qr hpq
      refine fa2_map (ihb pr.2 qr.2 hpq.2) ?_
      intro u v huv
      exact ⟨ciEqL_append hpq.1 huv.1, huv.2⟩
  | alt a b iha ihb =>
      intro s t h
      exact fa2_append (iha s t h) (ihb s t h)
  | opt a iha =>
      intro s t h
      exact fa2_append (iha s t h) (List.Forall₂.cons ⟨rfl, h⟩ List.Forall₂.nil)
  | rep cs neg => exact repM_ci cs neg

theorem findSome?_isSome_any {α β : Type} (l : List α) (f : α → Option β) :
    (l.findSome? f).isSome = l.any (fun a => (f a).isSome) := by
  induction l with
  | nil => simp [List.findSome?]
  | cons a t ih =>
      rw [List.findSome?]
      cases h : f a <;> simp [h, ih]

theorem postOk_ci {p : Pattern} {pr qr : List Char × List Char} (h : pairCI pr qr) :
    (postOk p pr).isSome = (postOk p qr).isSome := by
  unfold postOk
  have hlen : (matchRE p.post pr.2).length = (matchRE p.post qr.2).length :=
    (matchRE_ci p.post pr.2 qr.2 h.2).length_eq
  rw [isEmpty_of_length_eq hlen]
  by_cases he : (matchRE p.post qr.2).isEmpty <;> simp [he]

theorem grpStep_ci {p : Pattern} {pr qr : List Char × List Char} (h : pairCI pr qr) :
    (grpStep p pr).isSome = (grpStep p qr).isSome := by
  unfold grpStep
  rw [findSome?_isSome_any, findSome?_isSome_any]
  exact fa2_any (matchRE_ci p.grp pr.2 qr.2 h.2) (fun a b hab => postOk_ci hab)

theorem matchHere_ci {p : Pattern} {s t : List Char} (h : ciEqL s t) :
    (matchHere p s).isSome = (matchHere p t).isSome := by
  unfold matchHere
  rw [findSome?_isSome_any, findSome?_isSome_any]
  exact fa2_any (matchRE_ci p.pre s t h) (fun a b hab => grpStep_ci hab)

theorem searchPat_ci (p : Pattern) :
    ∀ s t : List Char, ciEqL s t → (searchPat p s).isSome = (searchPat p t).isSome := by
  intro s
  induction s with
  | nil => intro t ht; rw [ciEqL_nil ht]
  | cons c s' ih =>
      intro t ht
      obtain ⟨d, t', rfl, hcd, hst⟩ := ciEqL_cons ht
      have hh : (matchHere p (c :: s')).isSome = (matchHere p (d :: t')).isSome :=
        matchHere_ci (ciEqL_cons_intro hcd hst)
      simp only [searchPat]
      cases h1 : matchHere p (c :: s') with
      | some cap =>
          cases h2 : matchHere p (d :: t') with
          | some cap' => simp [Option.orElse]
          | none => rw [h1, h2] at hh; simp at hh
      | none =>
          cases h2 : matchHere p (d :: t') with
          | some cap' => rw [h1, h2] at hh; simp at hh
          | none => simpa [Option.orElse] using ih t' hst

theorem matchHere_sub {p : Pattern} {s cap : List Char}
    (h : matchHere p s = some cap) : ∃ u v, u ++ cap ++ v = s := by
  unfold matchHere at h
  obtain ⟨pr, hpr, hg⟩ := List.exists_of_findSome?_eq_some h
  unfold grpStep at hg
  obtain ⟨qr, hqr, hpo⟩ := List.exists_of_findSome?_eq_some hg
  unfold postOk at hpo
  by_cases he : (matchRE p.post qr.2).isEmpty
  · simp [he] at hpo
  · simp only [he, if_neg, Bool.not_eq_true, Option.some.injEq] at hpo
    have h1 := matchRE_consumed p.pre s pr hpr
    have h2 := matchRE_consumed p.grp pr.2 qr hqr
    refine ⟨pr.1, qr.2, ?_⟩
    rw [← hpo, List.append_assoc, h2, h1]

theorem searchPat_sub (p : Pattern) :
    ∀ s cap : List Char, searchPat p s = some cap → ∃ u v, u ++ cap ++ v = s := by
  intro s
  induction s with
  | nil => intro cap h; exact matchHere_sub h
  | cons c t ih =>
      intro cap h
      simp only [searchPat] at h
      cases h1 : matchHere p (c :: t) with
      | some cap' =>
          rw [h1] at h
          simp [Option.orElse] at h
          exact matchHere_sub (h ▸ h1)
      | none =>
          rw [h1] at h
          simp only [Option.orElse, Option.none_orElse] at h
          obtain ⟨u, v, huv⟩ := ih cap h
          exact ⟨c :: u, v, by simp [← huv]⟩

/-- C5: guUtil.extractID is a pure function; when the pattern matches
somewhere in the text it returns the substring captured by the named
group (a contiguous substring of the text), when it does not match it
returns the text unchanged, never an error; and whether a match exists
is invariant under changing the case of the text (the `re.I` flag). -/
theorem extractID_spec (patt : Pattern) (text : String) :
    (searchPat patt text.toList = none → extractID patt text = text) ∧
    (∀ cap, searchPat patt text.toList = some cap →
      extractID patt text = String.mk cap ∧ ∃ u v, u ++ cap ++ v = text.toList) ∧
    (∀ t : List Char, t.map Char.toLower = text.toList.map Char.toLower →
      (searchPat patt t).isSome = (searchPat patt text.toList).isSome) := by
  refine ⟨?_, ?_, ?_⟩
  · intro h; unfold extractID; rw [h]
  · intro cap h
    constructor
    · unfold extractID; rw [h]
    · exact searchPat_sub patt text.toList cap h
  · intro t ht
    exact searchPat_ci patt t text.toList ht

/-- Witness for C5 at the spec's own examples: with pattern
`(?P<id>FOO[0-9]+)`, text `"gene_id FOO123;"` yields `"FOO123"`, and the
non-matching text `"nonmatching text"` is returned unchanged (also under
a case change of the matching text). -/
theorem extractID_spec_witness :
    extractID fooPat "gene_id FOO123;" = "FOO123" ∧
    extractID fooPat "nonmatching text" = "nonmatching text" ∧
    (searchPat fooPat ("GENE_ID foo123;".toList)).isSome =
      (searchPat fooPat ("gene_id FOO123;".toList)).isSome := by
  refine ⟨?_, ?_, ?_⟩
  · exact ((extractID_spec fooPat "gene_id FOO123;").2.1 "FOO123".toList (by decide)).1
  · exact (extractID_spec fooPat "nonmatching text").1 (by decide)
  · exact (extractID_spec fooPat "gene_id FOO123;").2.2 "GENE_ID foo123;".toList (by decide)

/-! ### groomRe (gu.py option grooming) -/

/-- Substring containment test on strings. -/
def containsStr (s sub : String) : Bool := decide (sub.toList <:+: s.toList)

/-- Translation of the local function groomRe in gu.py GUPipeline.__init__:
take the option value (or the default when unset); if it does not contain
the named capture group marker `(?P<id>`, wrap the whole pattern in one;
finally quote the result as a Python raw-string literal for later textual
embedding into a TableTools expression. -/
def groomReWrap (r0 : String) : String :=
  if containsStr r0 "(?P<id>" then r0 else "(?P<id>" ++ r0 ++ ")"

/-- The raw-string quoting groomRe applies last, for textual embedding of
the groomed pattern into a TableTools expression. -/
def groomRe (r : Option String) (dflt : String) : String :=
  "r'" ++ groomReWrap (r.getD dflt) ++ "'"

theorem string_toList_append (a b : String) : (a ++ b).toList = a.toList ++ b.toList :=
  String.data_append a b

theorem string_eq_of_data {s t : String} (h : s.data = t.data) : s = t :=
  congrArg String.mk h

theorem groomRe_contains (r : Option String) (dflt : String) :
    containsStr (groomRe r dflt) "(?P<id>" = true := by
  unfold groomRe groomReWrap
  by_cases hc : containsStr (r.getD dflt) "(?P<id>" = true
  · rw [if_pos hc]
    unfold containsStr at hc ⊢
    rw [decide_eq_true_iff] at hc ⊢
    obtain ⟨u, v, huv⟩ := hc
    refine ⟨"r'".toList ++ u, v ++ "'".toList, ?_⟩
    rw [string_toList_append, string_toList_append, ← huv]
    simp [List.append_assoc]
  · rw [if_neg hc]
    unfold containsStr
    rw [decide_eq_true_iff]
    refine ⟨"r'".toList, (r.getD dflt).toList ++ ")".toList ++ "'".toList, ?_⟩
    simp only [string_toList_append, List.append_assoc]

theorem groomRe_wrap (r : Option String) (dflt : String)
    (h : containsStr (r.getD dflt) "(?P<id>" = false) :
    groomRe r dflt = "r'(?P<id>" ++ r.getD dflt ++ ")'" := by
  unfold groomRe groomReWrap
  rw [if_neg (by simp [h])]
  refine string_eq_of_data ?_
  simp [String.data_append, List.append_assoc]

/-- C6: every identifier or aggregation pattern accepted by gu.py is groomed
so that the compiled pattern contains the named capture group `(?P<id>`:
patterns lacking it are wrapped whole in one such group, so extraction by
the named group is possible for every user-supplied pattern. -/
theorem groomRe_spec (r : Option String) (dflt : String) :
    containsStr (groomRe r dflt) "(?P<id>" = true ∧
    (containsStr (r.getD dflt) "(?P<id>" = false →
      groomRe r dflt = "r'(?P<id>" ++ r.getD dflt ++ ")'") :=
  ⟨groomRe_contains r dflt, fun h => groomRe_wrap r dflt h⟩

/-- Witness for C6 on the help text's example pattern `MGI:[0-9]+`, which has
no named capture group and is wrapped whole. -/
theorem groomRe_spec_witness :
    containsStr (groomRe (some "MGI:[0-9]+") "Parent=(?P<id>[^; ]+)") "(?P<id>" = true ∧
    groomRe (some "MGI:[0-9]+") "Parent=(?P<id>[^; ]+)" = "r'(?P<id>MGI:[0-9]+)'" := by
  constructor
  · exact (groomRe_spec (some "MGI:[0-9]+") "Parent=(?P<id>[^; ]+)").1
  · rw [(groomRe_spec (some "MGI:[0-9]+") "Parent=(?P<id>[^; ]+)").2 (by decide)]
    decide

/-! ### Loose chromosome matching and input selection (gu.py) -/

/-- Is `tok` (written in lowercase) a case-insensitive leading token of `s`? -/
def ciStarts (tok : String) (s : String) : Bool :=
  decide (tok.toList <+: s.toList.map Char.toLower)

/-- Translation of the -C substitution in gu.py:
`re.sub('^(?i)chr(om(osome)?)?', '', IN[1])`.  The anchored greedy pattern
removes the longest case-insensitive leading token among "chromosome",
"chrom", "chr" (at most one), and leaves the field unchanged otherwise. -/
def stripChr (s : String) : String :=
  if ciStarts "chromosome" s then String.mk (s.toList.drop 10)
  else if ciStarts "chrom" s then String.mk (s.toList.drop 5)
  else if ciStarts "chr" s then String.mk (s.toList.drop 3)
  else s

/-- The chromosome value produced by gu.py's chrMatchExpr: the stripped
field when -C (loose matching) is on, the untouched field otherwise. -/
def chromSeen (loose : Bool) (c : String) : String := if loose then stripChr c else c

/-- One GFF record, nine tab-separated string columns. -/
structure Gff where
  chrom : String
  source : String
  typ : String
  gstart : String
  gend : String
  score : String
  strand : String
  frame : String
  attrs : String
deriving DecidableEq

/-- The conjunction of the optional type-selection predicates
`?str.lower(IN[3]) in types` and `?str.lower(IN[3]) not in notTypes`
that gu.py appends to the TF call (each only when its option list is
nonempty). -/
def typePred (types notTypes : List String) (typ : String) : Bool :=
  (types.isEmpty || types.contains (strLower typ)) &&
    (notTypes.isEmpty || !(notTypes.contains (strLower typ)))

/-- Translation of the input-selection stage of gu.py go_noAggregate: the
args list starts with the file and chrMatchExpr, type predicates are
appended, and the TF step runs only when len(args) > 2, i.e. only when at
least one type option was supplied; otherwise the original file is used
unchanged (so chrMatchExpr is never applied in that case).  The TF row
filter and column transform are modelled from the spec (TableTools TF is
not part of this repository's sources). -/
def selectStep (loose : Bool) (types notTypes : List String) (rows : List Gff) : List Gff :=
  if types.isEmpty && notTypes.isEmpty then rows
  else (rows.filter (fun r => typePred types notTypes r.typ)).map
    (fun r => { r with chrom := chromSeen loose r.chrom })

/-- A sample record whose chromosome field carries a "Chr" token. -/
def gffChr19 : Gff := ⟨"Chr19", "src", "gene", "1", "2", ".", "+", ".", "ID=g1;"⟩

/-- C8 (code-bug evidence): the -C substitution itself strips exactly one
leading case-insensitive chr/chrom/chromosome token (longest first) and
does nothing else, so "Chr19" becomes "19"; but when no type selection
option (t1, nt1) is supplied, gu.py skips the whole TF step (len(args) > 2 fails)
and the overlap matcher sees the chromosome field untransformed, "Chr19",
contradicting both the claim and the -C option's own help text.  With a
type option present the strip is applied as documented. -/
theorem chrMatchLoose_skip_bug :
    stripChr "Chr19" = "19" ∧
    stripChr "chromosome1" = "1" ∧
    stripChr "CHROM2" = "2" ∧
    stripChr "chrchr5" = "chr5" ∧
    stripChr "19" = "19" ∧
    chromSeen false "Chr19" = "Chr19" ∧
    selectStep true [] [] [gffChr19] = [gffChr19] ∧
    (selectStep true [] [] [gffChr19]).map Gff.chrom = ["Chr19"] ∧
    selectStep true ["gene"] [] [gffChr19] = [{ gffChr19 with chrom := "19" }] := by
  decide

/-! ### Aggregate-mode records and the feature aggregator -/

/-- A feature record on the aggregate path: the columns gu.py go_aggregate
keeps (IN[1:9]) that later stages read, with start and end numeric as the
aggregation reductions treat them. -/
structure Feat where
  chrom : String
  typ : String
  fstart : Int
  fend : Int
  strand : String
  attrs : String
deriving DecidableEq

/-- One aggregated entity produced by the TA call (one per extracted id):
id, member count, first chromosome, minimum start, maximum end, first
strand, in the column order TA is invoked with
(-g9 -acount -afirst:1 -amin:4 -amax:5 -afirst:7). -/
structure Entity where
  eid : String
  count : Nat
  chrom : String
  estart : Int
  eend : Int
  strand : String
deriving DecidableEq

/-- The reduction of one identifier group, first member `r`, remaining
members `same`, in input order. -/
def mkEnt (r : Feat × String) (same : List (Feat × String)) : Entity :=
  { eid := r.2
    count := 1 + same.length
    chrom := r.1.chrom
    estart := same.foldl (fun m x => min m x.1.fstart) r.1.fstart
    eend := same.foldl (fun m x => max m x.1.fend) r.1.fend
    strand := r.1.strand }

/-- Modelled from the spec: the TableTools TA group-aggregate consumed by
gu.py go_aggregate is not part of this repository's sources (spec par. 4.2
and the group-aggregate contract of par. 6): group the records by their
extracted id and reduce each group in one pass to member count, first
chromosome, minimum start, maximum end, first strand, where "first" is
input iteration order; one entity per distinct id, group order in the
output unspecified. -/
def aggregate (rs : List (Feat × String)) : List Entity :=
  ((rs.map Prod.snd).dedup).filterMap (fun i =>
    match rs.filter (fun x => x.2 == i) with
    | [] => none
    | r :: g => some (mkEnt r g))

/-- The group of records carrying identifier `i`, in input order. -/
def grpOf (rs : List (Feat × String)) (i : String) : List (Feat × String) :=
  rs.filter (fun x => x.2 == i)

theorem grpOf_of_mem {rs : List (Feat × String)} {i : String}
    (h : ∃ x ∈ rs, x.2 = i) : ∃ r g, grpOf rs i = r :: g ∧ r.2 = i := by
  obtain ⟨x, hx, hxi⟩ := h
  have hmem : x ∈ grpOf rs i := List.mem_filter.mpr ⟨hx, by simp [hxi]⟩
  cases hg : grpOf rs i with
  | nil => rw [hg] at hmem; exact absurd hmem (List.not_mem_nil x)
  | cons r g =>
      have hr : r ∈ grpOf rs i := by rw [hg]; exact List.mem_cons_self r g
      have := (List.mem_filter.mp hr).2
      exact ⟨r, g, rfl, by simpa using this⟩

theorem aggregate_mem {rs : List (Feat × String)} {e : Entity}
    (h : e ∈ aggregate rs) : ∃ r g, grpOf rs e.eid = r :: g ∧ e = mkEnt r g := by
  unfold aggregate at h
  obtain ⟨i, hi, hfi⟩ := List.mem_filterMap.mp h
  cases hg : rs.filter (fun x => x.2 == i) with
  | nil => rw [hg] at hfi; exact absurd hfi (by simp)
  | cons r g =>
      rw [hg] at hfi
      simp only [Option.some.injEq] at hfi
      have hr : r ∈ rs.filter (fun x => x.2 == i) := by
        rw [hg]; exact List.mem_cons_self r g
      have hri : r.2 = i := by simpa using (List.mem_filter.mp hr).2
      have heid : e.eid = i := by rw [← hfi]; exact hri
      refine ⟨r, g, ?_, hfi.symm⟩
      unfold grpOf
      rw [heid, hg]

theorem aggregate_ids (rs : List (Feat × String)) (i : String) :
    i ∈ (aggregate rs).map Entity.eid ↔ ∃ x ∈ rs, x.2 = i := by
  constructor
  · intro h
    obtain ⟨e, he, heid⟩ := List.mem_map.mp h
    obtain ⟨r, g, hg, -⟩ := aggregate_mem he
    have hr : r ∈ grpOf rs e.eid := by rw [hg]; exact List.mem_cons_self r g
    have hmem := List.mem_filter.mp hr
    exact ⟨r, hmem.1, by rw [← heid]; simpa using hmem.2⟩
  · intro h
    obtain ⟨r, g, hg, hri⟩ := grpOf_of_mem h
    obtain ⟨x, hx, hxi⟩ := h
    have hidedup : i ∈ (rs.map Prod.snd).dedup :=
      List.mem_dedup.mpr (List.mem_map.mpr ⟨x, hx, hxi⟩)
    refine List.mem_map.mpr ⟨mkEnt r g, ?_, hri⟩
    unfold aggregate
    refine List.mem_filterMap.mpr ⟨i, hidedup, ?_⟩
    unfold grpOf at hg
    rw [hg]

theorem aggregate_ids_nodup (rs : List (Feat × String)) :
    ((aggregate rs).map Entity.eid).Nodup := by
  unfold aggregate
  have hnd := List.nodup_dedup (rs.map Prod.snd)
  generalize (rs.map Prod.snd).dedup = l at hnd
  induction l with
  | nil => simp
  | cons i l ih =>
      rw [List.filterMap_cons]
      have hnd' := List.nodup_cons.mp hnd
      cases hfi : rs.filter (fun x => x.2 == i) with
      | nil => exact ih hnd'.2
      | cons r g =>
          simp only [List.map_cons, List.nodup_cons]
          refine ⟨?_, ih hnd'.2⟩
          intro hmem
          obtain ⟨e, he, heid⟩ := List.mem_map.mp hmem
          obtain ⟨j, hj, hfj⟩ := List.mem_filterMap.mp he
          cases hgj : rs.filter (fun x => x.2 == j) with
          | nil => rw [hgj] at hfj; exact absurd hfj (by simp)
          | cons r' g' =>
              rw [hgj] at hfj
              simp only [Option.some.injEq] at hfj
              have hr' : r' ∈ rs.filter (fun x => x.2 == j) := by
                rw [hgj]; exact List.mem_cons_self r' g'
              have hr'j : r'.2 = j := by simpa using (List.mem_filter.mp hr').2
              have hr : r ∈ rs.filter (fun x => x.2 == i) := by
                rw [hfi]; exact List.mem_cons_self r g
              have hri : r.2 = i := by simpa using (List.mem_filter.mp hr).2
              have : j = i := by
                rw [← hr'j, ← hri]
                rw [← hfj] at heid
                have h1 : (mkEnt r' g').eid = r'.2 := rfl
                have h2 : (mkEnt r g).eid = r.2 := rfl
                rw [h1] at heid
                rw [h2] at heid
                exact heid
              exact hnd'.1 (this ▸ hj)

theorem foldl_min_le (l : List Int) (a : Int) :
    l.foldl min a ≤ a ∧ ∀ x ∈ l, l.foldl min a ≤ x := by
  induction l generalizing a with
  | nil => exact ⟨le_refl a, fun x h => absurd h (List.not_mem_nil x)⟩
  | cons b t ih =>
      rw [List.foldl_cons]
      refine ⟨le_trans (ih (min a b)).1 (min_le_left a b), ?_⟩
      intro x hx
      rcases List.mem_cons.mp hx with rfl | hx
      · exact le_trans (ih (min a x)).1 (min_le_right a x)
      · exact (ih (min a b)).2 x hx

theorem foldl_min_mem (l : List Int) (a : Int) :
    l.foldl min a = a ∨ l.foldl min a ∈ l := by
  induction l generalizing a with
  | nil => left; rfl
  | cons b t ih =>
      rw [List.foldl_cons]
      rcases ih (min a b) with h | h
      · rcases min_choice a b with hm | hm
        · left; rw [h, hm]
        · right; rw [h, hm]; exact List.mem_cons_self b t
      · right; exact List.mem_cons_of_mem b h

theorem foldl_max_ge (l : List Int) (a : Int) :
    a ≤ l.foldl max a ∧ ∀ x ∈ l, x ≤ l.foldl max a := by
  induction l generalizing a with
  | nil => exact ⟨le_refl a, fun x h => absurd h (List.not_mem_nil x)⟩
  | cons b t ih =>
      rw [List.foldl_cons]
      refine ⟨le_trans (le_max_left a b) (ih (max a b)).1, ?_⟩
      intro x hx
      rcases List.mem_cons.mp hx with rfl | hx
      · exact le_trans (le_max_right a x) (ih (max a x)).1
      · exact (ih (max a b)).2 x hx

theorem foldl_max_mem (l : List Int) (a : Int) :
    l.foldl max a = a ∨ l.foldl max a ∈ l := by
  induction l generalizing a with
  | nil => left; rfl
  | cons b t ih =>
      rw [List.foldl_cons]
      rcases ih (max a b) with h | h
      · rcases max_choice a b with hm | hm
        · left; rw [h, hm]
        · right; rw [h, hm]; exact List.mem_cons_self b t
      · right; exact List.mem_cons_of_mem b h

theorem mkEnt_spec (r : Feat × String) (same : List (Feat × String)) :
    (mkEnt r same).eid = r.2 ∧
    (mkEnt r same).count = (r :: same).length ∧
    (mkEnt r same).chrom = r.1.chrom ∧ (mkEnt r same).strand = r.1.strand ∧
    (∃ x ∈ r :: same, (mkEnt r same).estart = x.1.fstart) ∧
    (∀ x ∈ r :: same, (mkEnt r same).estart ≤ x.1.fstart) ∧
    (∃ x ∈ r :: same, (mkEnt r same).eend = x.1.fend) ∧
    (∀ x ∈ r :: same, x.1.fend ≤ (mkEnt r same).eend) := by
  have estart_eq : (mkEnt r same).estart = (same.map (fun x => x.1.fstart)).foldl min r.1.fstart := by
    unfold mkEnt
    rw [List.foldl_map]
  have eend_eq : (mkEnt r same).eend = (same.map (fun x => x.1.fend)).foldl max r.1.fend := by
    unfold mkEnt
    rw [List.foldl_map]
  refine ⟨rfl, by simp [mkEnt, Nat.add_comm], rfl, rfl, ?_, ?_, ?_, ?_⟩
  · rcases foldl_min_mem (same.map (fun x => x.1.fstart)) r.1.fstart with h | h
    · exact ⟨r, List.mem_cons_self r same, by rw [estart_eq, h]⟩
    · obtain ⟨x, hx, hxe⟩ := List.mem_map.mp h
      exact ⟨x, List.mem_cons_of_mem r hx, by rw [estart_eq, ← hxe]⟩
  · intro x hx
    rcases List.mem_cons.mp hx with rfl | hx
    · rw [estart_eq]; exact (foldl_min_le _ _).1
    · rw [estart_eq]
      exact (foldl_min_le _ _).2 _ (List.mem_map.mpr ⟨x, hx, rfl⟩)
  · rcases foldl_max_mem (same.map (fun x => x.1.fend)) r.1.fend with h | h
    · exact ⟨r, List.mem_cons_self r same, by rw [eend_eq, h]⟩
    · obtain ⟨x, hx, hxe⟩ := List.mem_map.mp h
      exact ⟨x, List.mem_cons_of_mem r hx, by rw [eend_eq, ← hxe]⟩
  · intro x hx
    rcases List.mem_cons.mp hx with rfl | hx
    · rw [eend_eq]; exact (foldl_max_ge _ _).1
    · rw [eend_eq]
      exact (foldl_max_ge _ _).2 _ (List.mem_map.mpr ⟨x, hx, rfl⟩)

/-- C7: in aggregate mode, grouping the filtered records by extracted
identifier yields exactly one aggregated entity per distinct identifier
(the entity ids are duplicate-free and coincide with the record ids), each
entity carries the member count of its group, the chromosome and strand of
the group's first member in input iteration order, the minimum start and
the maximum end over the group, and the empty input gives the empty
output rather than an error. -/
theorem aggregate_spec (rs : List (Feat × String)) :
    aggregate ([] : List (Feat × String)) = [] ∧
    ((aggregate rs).map Entity.eid).Nodup ∧
    (∀ i : String, i ∈ (aggregate rs).map Entity.eid ↔ ∃ x ∈ rs, x.2 = i) ∧
    (∀ e ∈ aggregate rs, ∃ r g, grpOf rs e.eid = r :: g ∧
      e.count = (r :: g).length ∧ e.chrom = r.1.chrom ∧ e.strand = r.1.strand ∧
      (∃ x ∈ r :: g, e.estart = x.1.fstart) ∧ (∀ x ∈ r :: g, e.estart ≤ x.1.fstart) ∧
      (∃ x ∈ r :: g, e.eend = x.1.fend) ∧ (∀ x ∈ r :: g, x.1.fend ≤ e.eend)) := by
  refine ⟨rfl, aggregate_ids_nodup rs, aggregate_ids rs, ?_⟩
  intro e he
  obtain ⟨r, g, hg, rfl⟩ := aggregate_mem he
  obtain ⟨_, h2, h3, h4, h5, h6, h7, h8⟩ := mkEnt_spec r g
  exact ⟨r, g, hg, h2, h3, h4, h5, h6, h7, h8⟩

/-- The spec's aggregation example: three records with identifier G1 and
(start, end) pairs (100,200), (150,300), (50,180). -/
def exFeats : List (Feat × String) :=
  [(⟨"1", "exon", 100, 200, "+", "a1"⟩, "G1"),
   (⟨"1", "exon", 150, 300, "+", "a2"⟩, "G1"),
   (⟨"1", "exon", 50, 180, "+", "a3"⟩, "G1")]

/-- The entity the spec's aggregation example must produce. -/
def entG1 : Entity := ⟨"G1", 3, "1", 50, 300, "+"⟩

/-- Witness for C7 on the spec's example: start=50, end=300, memberCount=3,
and the minimum bound of the theorem holds on the concrete group. -/
theorem aggregate_spec_witness :
    aggregate exFeats = [entG1] ∧ entG1.estart = 50 ∧ entG1.eend = 300 ∧ entG1.count = 3 ∧
    (∀ x ∈ grpOf exFeats entG1.eid, entG1.estart ≤ x.1.fstart) := by
  refine ⟨by decide, by decide, by decide, by decide, ?_⟩
  obtain ⟨r, g, hg, -, -, -, -, hle, -, -⟩ :=
    (aggregate_spec exFeats).2.2.2 entG1 (by decide)
  rw [hg]
  exact hle

/-! ### Cluster builder (connected components of the bipartite overlap graph)

Modelled from the spec: the TableTools TB bucketizer that gu.py and
fjbucketizer.py invoke (with the left key column k1 and right key column
k2 of each overlap row) is not part of this repository's sources.  Spec
par. 4.4 describes it as incremental connectivity over the union of
left-member and right-member keys: for each pair, the clusters touched by
its two keys are merged.  A node is a key tagged with its side (false =
left, true = right), so the graph is bipartite even when the same key
string occurs on both sides. -/

/-- A side-tagged member key: false = left side, true = right side. -/
abbrev CNode (κ : Type) := Bool × κ

/-- The node occurs in the pair list. -/
def IsNode {κ : Type} (ps : List (κ × κ)) (n : CNode κ) : Prop :=
  ∃ q ∈ ps, n = (false, q.1) ∨ n = (true, q.2)

/-- Connectivity in the bipartite overlap graph: generated by the edges
(one per pair), reflexivity on nodes, symmetry and transitivity. -/
inductive Conn {κ : Type} (ps : List (κ × κ)) : CNode κ → CNode κ → Prop where
  | edge (q : κ × κ) (hq : q ∈ ps) : Conn ps (false, q.1) (true, q.2)
  | refl (n : CNode κ) (hn : IsNode ps n) : Conn ps n n
  | symm {a b : CNode κ} : Conn ps a b → Conn ps b a
  | trans {a b c : CNode κ} : Conn ps a b → Conn ps b c → Conn ps a c

/-- Does cluster `c` contain the left node `l` or the right node `r`? -/
def touchesB {κ : Type} [DecidableEq κ] (l r : CNode κ) (c : List (CNode κ)) : Bool :=
  decide (l ∈ c ∨ r ∈ c)

/-- One step of the incremental cluster builder: merge every cluster
touched by the pair's two keys (together with the two keys themselves)
into one cluster, keep the untouched clusters. -/
def addPair {κ : Type} [DecidableEq κ] (cs : List (List (CNode κ))) (q : κ × κ) :
    List (List (CNode κ)) :=
  (((false, q.1) :: (true, q.2) ::
      (cs.filter (touchesB (false, q.1) (true, q.2))).flatten).dedup)
    :: cs.filter (fun c => !touchesB (false, q.1) (true, q.2) c)

/-- The cluster builder: fold the pair stream through `addPair`. -/
def buildClusters {κ : Type} [DecidableEq κ] (ps : List (κ × κ)) : List (List (CNode κ)) :=
  ps.foldl addPair []

/-- Two nodes lie in one common cluster of `cs`. -/
def sameCluster {κ : Type} (cs : List (List (CNode κ))) (a b : CNode κ) : Prop :=
  ∃ c ∈ cs, a ∈ c ∧ b ∈ c

/-- The invariant tying the cluster list to the pair list: clusters are
nonempty, any node lies in at most one cluster, every node of the pair
list is covered, and two nodes share a cluster exactly when they are
connected. -/
structure ClGood {κ : Type} (ps : List (κ × κ)) (cs : List (List (CNode κ))) : Prop where
  nonempty : ∀ c ∈ cs, c ≠ []
  unique : ∀ c ∈ cs, ∀ c' ∈ cs, ∀ n : CNode κ, n ∈ c → n ∈ c' → c = c'
  cover : ∀ n : CNode κ, IsNode ps n → ∃ c ∈ cs, n ∈ c
  sound : ∀ a b : CNode κ, sameCluster cs a b ↔ Conn ps a b

theorem conn_isNode {κ : Type} {ps : List (κ × κ)} {a b : CNode κ}
    (h : Conn ps a b) : IsNode ps a ∧ IsNode ps b := by
  induction h with
  | edge q hq => exact ⟨⟨q, hq, Or.inl rfl⟩, ⟨q, hq, Or.inr rfl⟩⟩
  | refl n hn => exact ⟨hn, hn⟩
  | symm _ ih => exact ⟨ih.2, ih.1⟩
  | trans _ _ ih1 ih2 => exact ⟨ih1.1, ih2.2⟩

theorem conn_congr {κ : Type} {ps ps' : List (κ × κ)}
    (hsub : ∀ q, q ∈ ps → q ∈ ps') {a b : CNode κ} (h : Conn ps a b) : Conn ps' a b := by
  induction h with
  | edge q hq => exact Conn.edge q (hsub q hq)
  | refl n hn =>
      obtain ⟨q, hq, hor⟩ := hn
      exact Conn.refl n ⟨q, hsub q hq, hor⟩
  | symm _ ih => exact Conn.symm ih
  | trans _ _ ih1 ih2 => exact Conn.trans ih1 ih2

theorem conn_nil {κ : Type} {a b : CNode κ} (h : Conn ([] : List (κ × κ)) a b) : False := by
  induction h with
  | edge q hq => exact absurd hq (List.not_mem_nil q)
  | refl n hn =>
      obtain ⟨q, hq, -⟩ := hn
      exact absurd hq (List.not_mem_nil q)
  | symm _ ih => exact ih
  | trans _ _ ih1 _ => exact ih1

/-- Membership in the component the new pair creates or extends. -/
def inNew {κ : Type} (ps : List (κ × κ)) (q : κ × κ) (x : CNode κ) : Prop :=
  x = (false, q.1) ∨ x = (true, q.2) ∨
    Conn ps x (false, q.1) ∨ Conn ps x (true, q.2)

theorem inNew_of_conn {κ : Type} {ps : List (κ × κ)} {q : κ × κ} {a b : CNode κ}
    (hab : Conn ps a b) (hb : inNew ps q b) : inNew ps q a := by
  rcases hb with rfl | rfl | h | h
  · exact Or.inr (Or.inr (Or.inl hab))
  · exact Or.inr (Or.inr (Or.inr hab))
  · exact Or.inr (Or.inr (Or.inl (Conn.trans hab h)))
  · exact Or.inr (Or.inr (Or.inr (Conn.trans hab h)))

theorem conn_to_new {κ : Type} {ps : List (κ × κ)} {q : κ × κ} {x : CNode κ}
    (hx : inNew ps q x) : Conn (ps ++ [q]) x (false, q.1) := by
  have hq : q ∈ ps ++ [q] := List.mem_append.mpr (Or.inr (List.mem_singleton.mpr rfl))
  have hedge : Conn (ps ++ [q]) (false, q.1) (true, q.2) := Conn.edge q hq
  rcases hx with rfl | rfl | h | h
  · exact Conn.refl _ ⟨q, hq, Or.inl rfl⟩
  · exact Conn.symm hedge
  · exact conn_congr (fun p hp => List.mem_append.mpr (Or.inl hp)) h
  · exact Conn.trans
      (conn_congr (fun p hp => List.mem_append.mpr (Or.inl hp)) h)
      (Conn.symm hedge)

theorem conn_snoc_iff {κ : Type} {ps : List (κ × κ)} {q : κ × κ} {a b : CNode κ} :
    Conn (ps ++ [q]) a b ↔ Conn ps a b ∨ (inNew ps q a ∧ inNew ps q b) := by
  constructor
  · intro h
    induction h with
    | edge q' hq' =>
        rcases List.mem_append.mp hq' with hq' | hq'
        · exact Or.inl (Conn.edge q' hq')
        · rw [List.mem_singleton] at hq'
          subst hq'
          exact Or.inr ⟨Or.inl rfl, Or.inr (Or.inl rfl)⟩
    | refl n hn =>
        obtain ⟨q', hq', hor⟩ := hn
        rcases List.mem_append.mp hq' with hq' | hq'
        · exact Or.inl (Conn.refl n ⟨q', hq', hor⟩)
        · rw [List.mem_singleton] at hq'
          subst hq'
          rcases hor with rfl | rfl
          · exact Or.inr ⟨Or.inl rfl, Or.inl rfl⟩
          · exact Or.inr ⟨Or.inr (Or.inl rfl), Or.inr (Or.inl rfl)⟩
    | symm _ ih =>
        rcases ih with h | ⟨ha, hb⟩
        · exact Or.inl (Conn.symm h)
        · exact Or.inr ⟨hb, ha⟩
    | trans _ _ ih1 ih2 =>
        rcases ih1 with h1 | ⟨ha, hb⟩
        · rcases ih2 with h2 | ⟨hb, hc⟩
          · exact Or.inl (Conn.trans h1 h2)
          · exact Or.inr ⟨inNew_of_conn h1 hb, hc⟩
        · rcases ih2 with h2 | ⟨hb', hc⟩
          · exact Or.inr ⟨ha, inNew_of_conn (Conn.symm h2) hb⟩
          · exact Or.inr ⟨ha, hc⟩
  · intro h
    rcases h with h | ⟨ha, hb⟩
    · exact conn_congr (fun p hp => List.mem_append.mpr (Or.inl hp)) h
    · exact Conn.trans (conn_to_new ha) (Conn.symm (conn_to_new hb))

theorem mem_newC {κ : Type} [DecidableEq κ] {ps : List (κ × κ)} {cs : List (List (CNode κ))}
    (G : ClGood ps cs) (q : κ × κ) (n : CNode κ) :
    n ∈ (((false, q.1) :: (true, q.2) ::
        (cs.filter (touchesB (false, q.1) (true, q.2))).flatten).dedup) ↔ inNew ps q n := by
  rw [List.mem_dedup, List.mem_cons, List.mem_cons, List.mem_flatten]
  constructor
  · intro h
    rcases h with rfl | rfl | ⟨c, hc, hn⟩
    · exact Or.inl rfl
    · exact Or.inr (Or.inl rfl)
    · rw [List.mem_filter] at hc
      have ht := hc.2
      unfold touchesB at ht
      rw [decide_eq_true_iff] at ht
      rcases ht with hl | hr
      · exact Or.inr (Or.inr (Or.inl ((G.sound n _).mp ⟨c, hc.1, hn, hl⟩)))
      · exact Or.inr (Or.inr (Or.inr ((G.sound n _).mp ⟨c, hc.1, hn, hr⟩)))
  · intro h
    rcases h with rfl | rfl | h | h
    · exact Or.inl rfl
    · exact Or.inr (Or.inl rfl)
    · obtain ⟨c, hc, hn, hl⟩ := (G.sound n _).mpr h
      refine Or.inr (Or.inr ⟨c, ?_, hn⟩)
      rw [List.mem_filter]
      exact ⟨hc, by unfold touchesB; rw [decide_eq_true_iff]; exact Or.inl hl⟩
    · obtain ⟨c, hc, hn, hr⟩ := (G.sound n _).mpr h
      refine Or.inr (Or.inr ⟨c, ?_, hn⟩)
      rw [List.mem_filter]
      exact ⟨hc, by unfold touchesB; rw [decide_eq_true_iff]; exact Or.inr hr⟩

theorem untouched_disjoint {κ : Type} [DecidableEq κ] {ps : List (κ × κ)}
    {cs : List (List (CNode κ))} (G : ClGood ps cs) {q : κ × κ} {c : List (CNode κ)}
    (hc : c ∈ cs) (ht : touchesB (false, q.1) (true, q.2) c = false) {n : CNode κ}
    (hn1 : inNew ps q n) (hn2 : n ∈ c) : False := by
  have htp : ¬((false, q.1) ∈ c ∨ (true, q.2) ∈ c) := by
    intro hcontra
    unfold touchesB at ht
    rw [decide_eq_false_iff_not] at ht
    exact ht hcontra
  rcases hn1 with rfl | rfl | h | h
  · exact htp (Or.inl hn2)
  · exact htp (Or.inr hn2)
  · obtain ⟨c', hc', hn', hl'⟩ := (G.sound n _).mpr h
    have := G.unique c hc c' hc' n hn2 hn'
    exact htp (Or.inl (this ▸ hl'))
  · obtain ⟨c', hc', hn', hr'⟩ := (G.sound n _).mpr h
    have := G.unique c hc c' hc' n hn2 hn'
    exact htp (Or.inr (this ▸ hr'))

theorem good_step {κ : Type} [DecidableEq κ] {ps : List (κ × κ)}
    {cs : List (List (CNode κ))} (G : ClGood ps cs) (q : κ × κ) :
    ClGood (ps ++ [q]) (addPair cs q) := by
  constructor
  · -- nonempty
    intro c hc
    rcases List.mem_cons.mp hc with rfl | hc
    · exact List.ne_nil_of_mem ((mem_newC G q (false, q.1)).mpr (Or.inl rfl))
    · exact G.nonempty c (List.mem_filter.mp hc).1
  · -- unique
    intro c hc c' hc' n hn hn'
    rcases List.mem_cons.mp hc with rfl | hc
    · rcases List.mem_cons.mp hc' with rfl | hc'
      · rfl
      · exact (untouched_disjoint G (List.mem_filter.mp hc').1
          (by simpa using (List.mem_filter.mp hc').2) ((mem_newC G q n).mp hn) hn').elim
    · rcases List.mem_cons.mp hc' with rfl | hc'
      · exact (untouched_disjoint G (List.mem_filter.mp hc).1
          (by simpa using (List.mem_filter.mp hc).2) ((mem_newC G q n).mp hn') hn).elim
      · exact G.unique c (List.mem_filter.mp hc).1 c' (List.mem_filter.mp hc').1 n hn hn'
  · -- cover
    intro n hn
    obtain ⟨q', hq', hor⟩ := hn
    rcases List.mem_append.mp hq' with hq' | hq'
    · obtain ⟨c, hc, hnc⟩ := G.cover n ⟨q', hq', hor⟩
      by_cases ht : touchesB (false, q.1) (true, q.2) c = true
      · refine ⟨_, List.mem_cons_self _ _, ?_⟩
        rw [List.mem_dedup, List.mem_cons, List.mem_cons, List.mem_flatten]
        exact Or.inr (Or.inr ⟨c, List.mem_filter.mpr ⟨hc, ht⟩, hnc⟩)
      · refine ⟨c, List.mem_cons_of_mem _ (List.mem_filter.mpr ⟨hc, by simpa using ht⟩), hnc⟩
    · rw [List.mem_singleton] at hq'
      rw [hq'] at hor
      refine ⟨_, List.mem_cons_self _ _, (mem_newC G q n).mpr ?_⟩
      rcases hor with rfl | rfl
      · exact Or.inl rfl
      · exact Or.inr (Or.inl rfl)
  · -- sound
    intro a b
    rw [conn_snoc_iff]
    constructor
    · intro h
      obtain ⟨c, hc, ha, hb⟩ := h
      rcases List.mem_cons.mp hc with rfl | hc
      · exact Or.inr ⟨(mem_newC G q a).mp ha, (mem_newC G q b).mp hb⟩
      · exact Or.inl ((G.sound a b).mp ⟨c, (List.mem_filter.mp hc).1, ha, hb⟩)
    · intro h
      rcases h with h | ⟨ha, hb⟩
      · obtain ⟨c, hc, ha, hb⟩ := (G.sound a b).mpr h
        by_cases ht : touchesB (false, q.1) (true, q.2) c = true
        · refine ⟨_, List.mem_cons_self _ _, ?_, ?_⟩
          · rw [List.mem_dedup, List.mem_cons, List.mem_cons, List.mem_flatten]
            exact Or.inr (Or.inr ⟨c, List.mem_filter.mpr ⟨hc, ht⟩, ha⟩)
          · rw [List.mem_dedup, List.mem_cons, List.mem_cons, List.mem_flatten]
            exact Or.inr (Or.inr ⟨c, List.mem_filter.mpr ⟨hc, ht⟩, hb⟩)
        · exact ⟨c, List.mem_cons_of_mem _ (List.mem_filter.mpr ⟨hc, by simpa using ht⟩),
            ha, hb⟩
      · exact ⟨_, List.mem_cons_self _ _, (mem_newC G q a).mpr ha, (mem_newC G q b).mpr hb⟩

theorem good_nil {κ : Type} [DecidableEq κ] :
    ClGood ([] : List (κ × κ)) ([] : List (List (CNode κ))) := by
  constructor
  · intro c hc; exact absurd hc (List.not_mem_nil c)
  · intro c hc; exact absurd hc (List.not_mem_nil c)
  · intro n hn
    obtain ⟨q, hq, -⟩ := hn
    exact absurd hq (List.not_mem_nil q)
  · intro a b
    constructor
    · rintro ⟨c, hc, -⟩; exact absurd hc (List.not_mem_nil c)
    · intro h; exact absurd h conn_nil

theorem build_good {κ : Type} [DecidableEq κ] (ps : List (κ × κ)) :
    ClGood ps (buildClusters ps) := by
  induction ps using List.reverseRecOn with
  | nil => exact good_nil
  | append_singleton l q ih =>
      have e : buildClusters (l ++ [q]) = addPair (buildClusters l) q := by
        unfold buildClusters
        rw [List.foldl_append]
        rfl
      rw [e]
      exact good_step ih q

/-- The cluster of `cs` containing node `n`, if any (first match). -/
def clusterOfNode {κ : Type} [DecidableEq κ] (cs : List (List (CNode κ))) (n : CNode κ) :
    Option (List (CNode κ)) :=
  cs.find? (fun c => decide (n ∈ c))

theorem clusterOfNode_eq {κ : Type} [DecidableEq κ] {ps : List (κ × κ)}
    {cs : List (List (CNode κ))} (G : ClGood ps cs) {c : List (CNode κ)} {n : CNode κ}
    (hc : c ∈ cs) (hn : n ∈ c) : clusterOfNode cs n = some c := by
  cases hf : clusterOfNode cs n with
  | none =>
      unfold clusterOfNode at hf
      rw [List.find?_eq_none] at hf
      exact absurd (by rw [decide_eq_true_iff]; exact hn) (hf c hc)
  | some c' =>
      have h1 : n ∈ c' := by
        have := List.find?_some hf
        rwa [decide_eq_true_iff] at this
      have h2 : c' ∈ cs := List.mem_of_find?_eq_some hf
      rw [G.unique c' h2 c hc n h1 hn]

theorem cluster_mem_char {κ : Type} [DecidableEq κ] {ps : List (κ × κ)}
    {cs : List (List (CNode κ))} (G : ClGood ps cs) {c : List (CNode κ)} {n : CNode κ}
    (hc : c ∈ cs) (hn : n ∈ c) : ∀ y, y ∈ c ↔ Conn ps n y := by
  intro y
  constructor
  · intro hy
    exact (G.sound n y).mp ⟨c, hc, hn, hy⟩
  · intro hconn
    obtain ⟨c', hc', hn', hy'⟩ := (G.sound n y).mpr hconn
    rw [G.unique c hc c' hc' n hn hn']
    exact hy'

theorem mem_cluster_isNode {κ : Type} [DecidableEq κ] {ps : List (κ × κ)}
    {cs : List (List (CNode κ))} (G : ClGood ps cs) {c : List (CNode κ)} {n : CNode κ}
    (hc : c ∈ cs) (hn : n ∈ c) : IsNode ps n :=
  (conn_isNode ((G.sound n n).mp ⟨c, hc, hn, hn⟩)).1

/-- The shape data of a cluster given as a finite node set: the set itself,
the number of distinct left-side keys, the number of distinct right-side
keys. -/
def tupleOfF {κ : Type} [DecidableEq κ] (s : Finset (CNode κ)) :
    Finset (CNode κ) × Nat × Nat :=
  (s, (s.filter (fun n => n.1 = false)).card, (s.filter (fun n => n.1 = true)).card)

/-- Distinct left members of a cluster. -/
def leftCountOf {κ : Type} [DecidableEq κ] (c : List (CNode κ)) : Nat :=
  (c.toFinset.filter (fun n => n.1 = false)).card

/-- Distinct right members of a cluster. -/
def rightCountOf {κ : Type} [DecidableEq κ] (c : List (CNode κ)) : Nat :=
  (c.toFinset.filter (fun n => n.1 = true)).card

/-- The (members, leftCount, rightCount) tuple of one cluster. -/
def clusterTuple {κ : Type} [DecidableEq κ] (c : List (CNode κ)) :
    Finset (CNode κ) × Nat × Nat :=
  tupleOfF c.toFinset

/-- The collection of (cluster-as-node-set, leftCount, rightCount) tuples
of the cluster builder's output; since clusters are disjoint and nonempty,
their node sets are pairwise distinct, so this set faithfully represents
the multiset of tuples. -/
def clusterTuples {κ : Type} [DecidableEq κ] (kps : List (κ × κ)) :
    Finset (Finset (CNode κ) × Nat × Nat) :=
  ((buildClusters kps).map clusterTuple).toFinset

/-- The bucket label of a cluster shape, from spec par. 3 (the `1-0` and
`0-1` labels are synthesized elsewhere, never by this function). -/
def bucketLabel (lc rc : Nat) : String :=
  if lc = 1 ∧ rc = 1 then "1-1"
  else if lc = 1 then "1-n"
  else if rc = 1 then "n-1"
  else "n-m"

/-- The bucket label attached to every pair whose key node is `n`. -/
def nodeLabel {κ : Type} [DecidableEq κ] (kps : List (κ × κ)) (n : CNode κ) : String :=
  match clusterOfNode (buildClusters kps) n with
  | some c => bucketLabel (leftCountOf c) (rightCountOf c)
  | none => "?"

theorem isNode_congr {κ : Type} {kps kps' : List (κ × κ)}
    (hmem : ∀ x, x ∈ kps ↔ x ∈ kps') {n : CNode κ} (h : IsNode kps n) : IsNode kps' n := by
  obtain ⟨q, hq, hor⟩ := h
  exact ⟨q, (hmem q).mp hq, hor⟩

theorem cluster_finset_congr {κ : Type} [DecidableEq κ] {kps kps' : List (κ × κ)}
    (hmem : ∀ x, x ∈ kps ↔ x ∈ kps') {c c' : List (CNode κ)} {n : CNode κ}
    (hc : c ∈ buildClusters kps) (hc' : c' ∈ buildClusters kps')
    (hn : n ∈ c) (hn' : n ∈ c') : c.toFinset = c'.toFinset := by
  ext y
  rw [List.mem_toFinset, List.mem_toFinset]
  rw [cluster_mem_char (build_good kps) hc hn y,
    cluster_mem_char (build_good kps') hc' hn' y]
  constructor
  · exact conn_congr (fun x hx => (hmem x).mp hx)
  · exact conn_congr (fun x hx => (hmem x).mpr hx)

theorem clusterTuples_subset {κ : Type} [DecidableEq κ] {kps kps' : List (κ × κ)}
    (hmem : ∀ x, x ∈ kps ↔ x ∈ kps') :
    clusterTuples kps ⊆ clusterTuples kps' := by
  intro t ht
  unfold clusterTuples at ht ⊢
  rw [List.mem_toFinset, List.mem_map] at ht
  obtain ⟨c, hc, rfl⟩ := ht
  obtain ⟨n, hn⟩ := List.exists_mem_of_ne_nil c ((build_good kps).nonempty c hc)
  have hnode : IsNode kps' n :=
    isNode_congr hmem (mem_cluster_isNode (build_good kps) hc hn)
  obtain ⟨c', hc', hn'⟩ := (build_good kps').cover n hnode
  rw [List.mem_toFinset, List.mem_map]
  refine ⟨c', hc', ?_⟩
  unfold clusterTuple
  rw [cluster_finset_congr hmem hc hc' hn hn']

theorem nodeLabel_congr {κ : Type} [DecidableEq κ] {kps kps' : List (κ × κ)}
    (hmem : ∀ x, x ∈ kps ↔ x ∈ kps') (n : CNode κ) :
    nodeLabel kps n = nodeLabel kps' n := by
  by_cases hnode : IsNode kps n
  · obtain ⟨c, hc, hn⟩ := (build_good kps).cover n hnode
    obtain ⟨c', hc', hn'⟩ := (build_good kps').cover n (isNode_congr hmem hnode)
    unfold nodeLabel
    rw [clusterOfNode_eq (build_good kps) hc hn,
      clusterOfNode_eq (build_good kps') hc' hn']
    have hfe := cluster_finset_congr hmem hc hc' hn hn'
    exact congrArg (fun s : Finset (CNode κ) =>
      bucketLabel (Finset.filter (fun n => n.1 = false) s).card
        (Finset.filter (fun n => n.1 = true) s).card) hfe
  · have hnode' : ¬ IsNode kps' n := fun h =>
      hnode (isNode_congr (fun x => (hmem x).symm) h)
    have h1 : clusterOfNode (buildClusters kps) n = none := by
      unfold clusterOfNode
      rw [List.find?_eq_none]
      intro c hc
      rw [decide_eq_true_iff]
      intro hn
      exact hnode (mem_cluster_isNode (build_good kps) hc hn)
    have h2 : clusterOfNode (buildClusters kps') n = none := by
      unfold clusterOfNode
      rw [List.find?_eq_none]
      intro c hc
      rw [decide_eq_true_iff]
      intro hn
      exact hnode' (mem_cluster_isNode (build_good kps') hc hn)
    unfold nodeLabel
    rw [h1, h2]

/-- C2: permuting the order in which the overlap pairs are fed to the
cluster builder never changes the set of (cluster-as-node-set, leftCount,
rightCount) tuples — the counts being cardinalities of the distinct left
and right member-key sets — and the bucket label attached to any key node
(hence to every pair) is likewise independent of pair-processing order. -/
theorem cluster_tally_perm {κ : Type} [DecidableEq κ] (kps kps' : List (κ × κ))
    (h : kps.Perm kps') :
    clusterTuples kps = clusterTuples kps' ∧
    ∀ n : CNode κ, nodeLabel kps n = nodeLabel kps' n := by
  have hmem : ∀ x, x ∈ kps ↔ x ∈ kps' := fun x => h.mem_iff
  constructor
  · refine Finset.Subset.antisymm (clusterTuples_subset hmem) (clusterTuples_subset ?_)
    exact fun x => (hmem x).symm
  · exact nodeLabel_congr hmem

/-- Witness for C2 at a concrete instance: the two-pair stream sharing one
right key, in both orders. -/
theorem cluster_tally_perm_witness :
    clusterTuples [((1 : Nat), 10), (2, 10)] = clusterTuples [((2 : Nat), 10), (1, 10)] ∧
    nodeLabel [((1 : Nat), 10), (2, 10)] (false, 1) =
      nodeLabel [((2 : Nat), 10), (1, 10)] (false, 1) ∧
    nodeLabel [((1 : Nat), 10), (2, 10)] (false, 1) = "n-1" := by
  refine ⟨(cluster_tally_perm _ _ (List.Perm.swap _ _ _)).1,
    (cluster_tally_perm _ _ (List.Perm.swap _ _ _)).2 (false, 1), ?_⟩
  decide

/-! ### Bucket assignment and singleton reconciliation (no-aggregate path)

gu.py go_noAggregate clusters the overlap rows on the two id columns
(TB with the k1 and k2 options), partitions the rows by label (TS, TP), then
fills the `1-0` / `0-1` buckets by anti-joining each filtered input
against the clustered rows on the same id columns (the two TD steps).
TB, TP, TS and TD are not part of this repository's sources; they are
modelled from spec par. 4.4, 4.5 and 4.7. -/

/-- The key pairs the cluster builder receives: one (left key, right key)
pair per overlap row. -/
def keyPairs {α β κ : Type} (k1 : α → κ) (k2 : β → κ) (ps : List (α × β)) : List (κ × κ) :=
  ps.map (fun q => (k1 q.1, k2 q.2))

/-- The bucket label written on an overlap row: the label of the cluster
containing the row's left key. -/
def pairLabel {α β κ : Type} [DecidableEq κ] (k1 : α → κ) (k2 : β → κ)
    (ps : List (α × β)) (q : α × β) : String :=
  nodeLabel (keyPairs k1 k2 ps) (false, k1 q.1)

/-- Modelled from the spec: the TD anti-join producing the `1-0` bucket
(spec par. 4.5 and the anti-join contract of par. 6): the left input rows
whose key has no match among the left keys of the clustered rows. -/
def tdLeft {α β κ : Type} [DecidableEq κ] (k1 : α → κ) (f1 : List α) (ps : List (α × β)) :
    List α :=
  f1.filter (fun r => decide (¬ ∃ q ∈ ps, k1 q.1 = k1 r))

/-- Modelled from the spec: the TD anti-join producing the `0-1` bucket. -/
def tdRight {α β κ : Type} [DecidableEq κ] (k2 : β → κ) (f2 : List β) (ps : List (α × β)) :
    List β :=
  f2.filter (fun r => decide (¬ ∃ q ∈ ps, k2 q.2 = k2 r))

/-- The left record `r` appears in the bucket file labelled `L`: either
some clustered overlap row labelled `L` has `r` as its left record, or
`L` is `1-0` and `r` survives the anti-join. -/
def appearsLeft {α β κ : Type} [DecidableEq κ] (k1 : α → κ) (k2 : β → κ)
    (f1 : List α) (ps : List (α × β)) (r : α) (L : String) : Prop :=
  (∃ q ∈ ps, q.1 = r ∧ pairLabel k1 k2 ps q = L) ∨ (L = "1-0" ∧ r ∈ tdLeft k1 f1 ps)

/-- The right record `r` appears in the bucket file labelled `L`. -/
def appearsRight {α β κ : Type} [DecidableEq κ] (k1 : α → κ) (k2 : β → κ)
    (f2 : List β) (ps : List (α × β)) (r : β) (L : String) : Prop :=
  (∃ q ∈ ps, q.2 = r ∧ pairLabel k1 k2 ps q = L) ∨ (L = "0-1" ∧ r ∈ tdRight k2 f2 ps)

/-- All bucket labels a run can produce for left records: the labels of
the clustered rows plus `1-0`. -/
def labelSet {α β κ : Type} [DecidableEq κ] (k1 : α → κ) (k2 : β → κ)
    (ps : List (α × β)) : Finset String :=
  insert "1-0" ((ps.map (pairLabel k1 k2 ps)).toFinset)

theorem pair_cluster {κ : Type} [DecidableEq κ] {kps : List (κ × κ)} {a b : κ}
    (h : (a, b) ∈ kps) :
    ∃ c ∈ buildClusters kps, (false, a) ∈ c ∧ (true, b) ∈ c :=
  ((build_good kps).sound (false, a) (true, b)).mpr (Conn.edge (a, b) h)

theorem nodeLabel_adj {κ : Type} [DecidableEq κ] {kps : List (κ × κ)} {a b : κ}
    (h : (a, b) ∈ kps) : nodeLabel kps (false, a) = nodeLabel kps (true, b) := by
  obtain ⟨c, hc, h1, h2⟩ := pair_cluster h
  unfold nodeLabel
  rw [clusterOfNode_eq (build_good kps) hc h1, clusterOfNode_eq (build_good kps) hc h2]

theorem bucketLabel_cases (lc rc : Nat) :
    bucketLabel lc rc = "1-1" ∨ bucketLabel lc rc = "1-n" ∨
    bucketLabel lc rc = "n-1" ∨ bucketLabel lc rc = "n-m" := by
  unfold bucketLabel
  by_cases h1 : lc = 1 ∧ rc = 1
  · rw [if_pos h1]; exact Or.inl rfl
  · rw [if_neg h1]
    by_cases h2 : lc = 1
    · rw [if_pos h2]; exact Or.inr (Or.inl rfl)
    · rw [if_neg h2]
      by_cases h3 : rc = 1
      · rw [if_pos h3]; exact Or.inr (Or.inr (Or.inl rfl))
      · rw [if_neg h3]; exact Or.inr (Or.inr (Or.inr rfl))

theorem bucketLabel_ne_onesided (lc rc : Nat) :
    bucketLabel lc rc ≠ "1-0" ∧ bucketLabel lc rc ≠ "0-1" := by
  rcases bucketLabel_cases lc rc with h | h | h | h <;> rw [h] <;>
    exact ⟨by decide, by decide⟩

theorem pairLabel_ne_onesided {α β κ : Type} [DecidableEq κ] (k1 : α → κ) (k2 : β → κ)
    {ps : List (α × β)} {q : α × β} (hq : q ∈ ps) :
    pairLabel k1 k2 ps q ≠ "1-0" ∧ pairLabel k1 k2 ps q ≠ "0-1" := by
  have hmem : (k1 q.1, k2 q.2) ∈ keyPairs k1 k2 ps := List.mem_map.mpr ⟨q, hq, rfl⟩
  obtain ⟨c, hc, h1, -⟩ := pair_cluster hmem
  unfold pairLabel nodeLabel
  rw [clusterOfNode_eq (build_good (keyPairs k1 k2 ps)) hc h1]
  exact bucketLabel_ne_onesided (leftCountOf c) (rightCountOf c)

theorem pairLabel_eq_left {α β κ : Type} [DecidableEq κ] (k1 : α → κ) (k2 : β → κ)
    {ps : List (α × β)} (q q' : α × β) (h : k1 q.1 = k1 q'.1) :
    pairLabel k1 k2 ps q = pairLabel k1 k2 ps q' := by
  unfold pairLabel
  rw [h]

theorem pairLabel_eq_right {α β κ : Type} [DecidableEq κ] (k1 : α → κ) (k2 : β → κ)
    {ps : List (α × β)} {q q' : α × β} (hq : q ∈ ps) (hq' : q' ∈ ps)
    (h : k2 q.2 = k2 q'.2) : pairLabel k1 k2 ps q = pairLabel k1 k2 ps q' := by
  unfold pairLabel
  have hm : (k1 q.1, k2 q.2) ∈ keyPairs k1 k2 ps := List.mem_map.mpr ⟨q, hq, rfl⟩
  have hm' : (k1 q'.1, k2 q'.2) ∈ keyPairs k1 k2 ps := List.mem_map.mpr ⟨q', hq', rfl⟩
  rw [nodeLabel_adj hm, nodeLabel_adj hm', h]

theorem appearsLeft_unique {α β κ : Type} [DecidableEq α] [DecidableEq κ]
    (k1 : α → κ) (k2 : β → κ) (f1 : List α) (ps : List (α × β))
    (h1 : (f1.map k1).Nodup) (hp : ∀ q ∈ ps, q.1 ∈ f1) {r : α} (hr : r ∈ f1) :
    ∃! L : String, appearsLeft k1 k2 f1 ps r L := by
  by_cases hpart : ∃ q ∈ ps, q.1 = r
  · obtain ⟨q0, hq0, hq0r⟩ := hpart
    refine ⟨pairLabel k1 k2 ps q0, Or.inl ⟨q0, hq0, hq0r, rfl⟩, ?_⟩
    intro L hL
    rcases hL with ⟨q', hq', hq'r, hlab⟩ | ⟨rfl, htd⟩
    · rw [← hlab]
      exact pairLabel_eq_left k1 k2 q' q0 (by rw [hq'r, hq0r])
    · exfalso
      have := (List.mem_filter.mp htd).2
      rw [decide_eq_true_iff] at this
      exact this ⟨q0, hq0, by rw [hq0r]⟩
  · refine ⟨"1-0", Or.inr ⟨rfl, ?_⟩, ?_⟩
    · refine List.mem_filter.mpr ⟨hr, ?_⟩
      rw [decide_eq_true_iff]
      rintro ⟨q, hq, hkq⟩
      exact hpart ⟨q, hq, List.inj_on_of_nodup_map h1 (hp q hq) hr hkq⟩
    · intro L hL
      rcases hL with ⟨q', hq', hq'r, -⟩ | ⟨rfl, -⟩
      · exact absurd ⟨q', hq', hq'r⟩ hpart
      · rfl

theorem appearsLeft_10_iff {α β κ : Type} [DecidableEq α] [DecidableEq κ]
    (k1 : α → κ) (k2 : β → κ) (f1 : List α) (ps : List (α × β))
    (h1 : (f1.map k1).Nodup) (hp : ∀ q ∈ ps, q.1 ∈ f1) {r : α} (hr : r ∈ f1) :
    appearsLeft k1 k2 f1 ps r "1-0" ↔ ¬ ∃ q ∈ ps, q.1 = r := by
  constructor
  · intro h
    rcases h with ⟨q', hq', -, hlab⟩ | ⟨-, htd⟩
    · exact absurd hlab (pairLabel_ne_onesided k1 k2 hq').1
    · have := (List.mem_filter.mp htd).2
      rw [decide_eq_true_iff] at this
      rintro ⟨q, hq, hqr⟩
      exact this ⟨q, hq, by rw [hqr]⟩
  · intro hpart
    refine Or.inr ⟨rfl, List.mem_filter.mpr ⟨hr, ?_⟩⟩
    rw [decide_eq_true_iff]
    rintro ⟨q, hq, hkq⟩
    exact hpart ⟨q, hq, List.inj_on_of_nodup_map h1 (hp q hq) hr hkq⟩

theorem appearsRight_unique {α β κ : Type} [DecidableEq β] [DecidableEq κ]
    (k1 : α → κ) (k2 : β → κ) (f2 : List β) (ps : List (α × β))
    (h2 : (f2.map k2).Nodup) (hp : ∀ q ∈ ps, q.2 ∈ f2) {r : β} (hr : r ∈ f2) :
    ∃! L : String, appearsRight k1 k2 f2 ps r L := by
  by_cases hpart : ∃ q ∈ ps, q.2 = r
  · obtain ⟨q0, hq0, hq0r⟩ := hpart
    refine ⟨pairLabel k1 k2 ps q0, Or.inl ⟨q0, hq0, hq0r, rfl⟩, ?_⟩
    intro L hL
    rcases hL with ⟨q', hq', hq'r, hlab⟩ | ⟨rfl, htd⟩
    · rw [← hlab]
      exact pairLabel_eq_right k1 k2 hq' hq0 (by rw [hq'r, hq0r])
    · exfalso
      have := (List.mem_filter.mp htd).2
      rw [decide_eq_true_iff] at this
      exact this ⟨q0, hq0, by rw [hq0r]⟩
  · refine ⟨"0-1", Or.inr ⟨rfl, ?_⟩, ?_⟩
    · refine List.mem_filter.mpr ⟨hr, ?_⟩
      rw [decide_eq_true_iff]
      rintro ⟨q, hq, hkq⟩
      exact hpart ⟨q, hq, List.inj_on_of_nodup_map h2 (hp q hq) hr hkq⟩
    · intro L hL
      rcases hL with ⟨q', hq', hq'r, -⟩ | ⟨rfl, -⟩
      · exact absurd ⟨q', hq', hq'r⟩ hpart
      · rfl

theorem appearsRight_01_iff {α β κ : Type} [DecidableEq β] [DecidableEq κ]
    (k1 : α → κ) (k2 : β → κ) (f2 : List β) (ps : List (α × β))
    (h2 : (f2.map k2).Nodup) (hp : ∀ q ∈ ps, q.2 ∈ f2) {r : β} (hr : r ∈ f2) :
    appearsRight k1 k2 f2 ps r "0-1" ↔ ¬ ∃ q ∈ ps, q.2 = r := by
  constructor
  · intro h
    rcases h with ⟨q', hq', -, hlab⟩ | ⟨-, htd⟩
    · exact absurd hlab (pairLabel_ne_onesided k1 k2 hq').2
    · have := (List.mem_filter.mp htd).2
      rw [decide_eq_true_iff] at this
      rintro ⟨q, hq, hqr⟩
      exact this ⟨q, hq, by rw [hqr]⟩
  · intro hpart
    refine Or.inr ⟨rfl, List.mem_filter.mpr ⟨hr, ?_⟩⟩
    rw [decide_eq_true_iff]
    rintro ⟨q, hq, hkq⟩
    exact hpart ⟨q, hq, List.inj_on_of_nodup_map h2 (hp q hq) hr hkq⟩

theorem appearsLeft_in_labelSet {α β κ : Type} [DecidableEq α] [DecidableEq κ]
    (k1 : α → κ) (k2 : β → κ) (f1 : List α) (ps : List (α × β)) (r : α) (L : String)
    (h : appearsLeft k1 k2 f1 ps r L) : L ∈ labelSet k1 k2 ps := by
  rcases h with ⟨q, hq, -, hlab⟩ | ⟨rfl, -⟩
  · exact Finset.mem_insert_of_mem
      (List.mem_toFinset.mpr (List.mem_map.mpr ⟨q, hq, hlab⟩))
  · exact Finset.mem_insert_self "1-0" _

theorem sum_unique_card {α : Type} [DecidableEq α] (T : Finset α) (S : Finset String)
    (B : α → String → Prop) [inst : ∀ r L, Decidable (B r L)]
    (huniq : ∀ r ∈ T, ∃! L, B r L) (hS : ∀ r ∈ T, ∀ L, B r L → L ∈ S) :
    ∑ L ∈ S, (T.filter (fun r => B r L)).card = T.card := by
  have h1 : ∀ L ∈ S, (T.filter (fun r => B r L)).card =
      ∑ r ∈ T, if B r L then 1 else 0 := fun L _ => Finset.card_filter _ _
  rw [Finset.sum_congr rfl h1, Finset.sum_comm]
  have h2 : ∀ r ∈ T, (∑ L ∈ S, if B r L then 1 else 0) = 1 := by
    intro r hr
    rw [← Finset.card_filter]
    obtain ⟨L0, hB, huq⟩ := huniq r hr
    rw [Finset.card_eq_one]
    refine ⟨L0, ?_⟩
    ext L
    rw [Finset.mem_filter, Finset.mem_singleton]
    constructor
    · rintro ⟨-, hBL⟩; exact huq L hBL
    · rintro rfl; exact ⟨hS r hr _ hB, hB⟩
  rw [Finset.sum_congr rfl h2]
  simp

theorem length_filter_toFinset {α : Type} [DecidableEq α] {l : List α} (hl : l.Nodup)
    (p : α → Prop) [DecidablePred p] :
    (l.filter (fun r => decide (p r))).length = (l.toFinset.filter p).card := by
  rw [← List.toFinset_card_of_nodup (hl.filter _), List.toFinset_filter]
  congr 1
  refine Finset.filter_congr ?_
  intro x _
  simp

instance {α β κ : Type} [DecidableEq α] [DecidableEq κ] (k1 : α → κ) (k2 : β → κ)
    (f1 : List α) (ps : List (α × β)) (r : α) (L : String) :
    Decidable (appearsLeft k1 k2 f1 ps r L) := by
  unfold appearsLeft
  infer_instance

instance {α β κ : Type} [DecidableEq β] [DecidableEq κ] (k1 : α → κ) (k2 : β → κ)
    (f2 : List β) (ps : List (α × β)) (r : β) (L : String) :
    Decidable (appearsRight k1 k2 f2 ps r L) := by
  unfold appearsRight
  infer_instance

/-- C1: on the no-aggregate path, with the id columns unique within each
filtered input and every overlap row drawn from the filtered inputs, each
left record appears in exactly one bucket file — the label of the cluster
of any overlap row it heads, never `1-0`, when it overlaps something, and
exactly `1-0` otherwise — and symmetrically for right records and `0-1`;
hence the number of left records appearing per bucket, summed over all
bucket files, equals the size of the filtered left input. -/
theorem noAgg_buckets_partition {α β κ : Type} [DecidableEq α] [DecidableEq β] [DecidableEq κ]
    (k1 : α → κ) (k2 : β → κ) (f1 : List α) (f2 : List β) (ps : List (α × β))
    (h1 : (f1.map k1).Nodup) (h2 : (f2.map k2).Nodup)
    (hp1 : ∀ q ∈ ps, q.1 ∈ f1) (hp2 : ∀ q ∈ ps, q.2 ∈ f2) :
    (∀ r ∈ f1, ∃! L : String, appearsLeft k1 k2 f1 ps r L) ∧
    (∀ r ∈ f1, (appearsLeft k1 k2 f1 ps r "1-0" ↔ ¬ ∃ q ∈ ps, q.1 = r)) ∧
    (∑ L ∈ labelSet k1 k2 ps,
        (f1.filter (fun r => decide (appearsLeft k1 k2 f1 ps r L))).length = f1.length) ∧
    (∀ r ∈ f2, ∃! L : String, appearsRight k1 k2 f2 ps r L) ∧
    (∀ r ∈ f2, (appearsRight k1 k2 f2 ps r "0-1" ↔ ¬ ∃ q ∈ ps, q.2 = r)) := by
  have hf1nd : f1.Nodup := h1.of_map k1
  refine ⟨fun r hr => appearsLeft_unique k1 k2 f1 ps h1 hp1 hr,
    fun r hr => appearsLeft_10_iff k1 k2 f1 ps h1 hp1 hr, ?_,
    fun r hr => appearsRight_unique k1 k2 f2 ps h2 hp2 hr,
    fun r hr => appearsRight_01_iff k1 k2 f2 ps h2 hp2 hr⟩
  have hcongr : ∀ L ∈ labelSet k1 k2 ps,
      (f1.filter (fun r => decide (appearsLeft k1 k2 f1 ps r L))).length =
        (f1.toFinset.filter (fun r => appearsLeft k1 k2 f1 ps r L)).card :=
    fun L _ => length_filter_toFinset hf1nd (fun r => appearsLeft k1 k2 f1 ps r L)
  rw [Finset.sum_congr rfl hcongr]
  rw [sum_unique_card f1.toFinset (labelSet k1 k2 ps)
    (fun r L => appearsLeft k1 k2 f1 ps r L)
    (fun r hr => appearsLeft_unique k1 k2 f1 ps h1 hp1 (List.mem_toFinset.mp hr))
    (fun r _ L hL => appearsLeft_in_labelSet k1 k2 f1 ps r L hL)]
  exact List.toFinset_card_of_nodup hf1nd

/-- Witness for C1 on a concrete run: left input [1,2,3], right input
[10,20], overlap pairs (1,10) and (2,10); record 3 falls in exactly one
bucket (the `1-0` file) and the per-bucket counts sum to 3. -/
theorem noAgg_buckets_partition_witness :
    (∃! L : String, appearsLeft (fun n : Nat => n) (fun n : Nat => n)
      [1, 2, 3] [((1 : Nat), (10 : Nat)), (2, 10)] 3 L) ∧
    appearsLeft (fun n : Nat => n) (fun n : Nat => n)
      [1, 2, 3] [((1 : Nat), (10 : Nat)), (2, 10)] 3 "1-0" ∧
    (∑ L ∈ labelSet (fun n : Nat => n) (fun n : Nat => n) [((1 : Nat), (10 : Nat)), (2, 10)],
        (([1, 2, 3] : List Nat).filter (fun r => decide (appearsLeft (fun n : Nat => n)
          (fun n : Nat => n) [1, 2, 3] [((1 : Nat), (10 : Nat)), (2, 10)] r L))).length) = 3 := by
  have h := noAgg_buckets_partition (fun n : Nat => n) (fun n : Nat => n)
    [1, 2, 3] [10, 20] [((1 : Nat), (10 : Nat)), (2, 10)]
    (by decide) (by decide) (by decide) (by decide)
  refine ⟨h.1 3 (by decide), ?_, h.2.2.1⟩
  exact (h.2.1 3 (by decide)).mpr (by decide)

/-! ### The final-output coalescing expressions (aggregate path)

The final TF step of go_aggregate computes its first two output columns
with Python and/or chains over the doubly outer-joined row; these are
translated exactly, including Python truthiness (the empty string and
False are falsy, any other string truthy). -/

/-- A Python value flowing through an and/or chain: a bool or a string. -/
inductive PyVal where
  | pb : Bool → PyVal
  | pstr : String → PyVal
deriving DecidableEq

/-- Python truthiness for the values at hand. -/
def pyTruthy : PyVal → Bool
  | PyVal.pb b => b
  | PyVal.pstr s => !(s == "")

/-- Python `and`: the left value if falsy, else the right value. -/
def pyAnd (x y : PyVal) : PyVal := if pyTruthy x then y else x

/-- Python `or`: the left value if truthy, else the right value. -/
def pyOr (x y : PyVal) : PyVal := if pyTruthy x then x else y

/-- The string a value prints as in the output column. -/
def pyToStr : PyVal → String
  | PyVal.pb b => if b then "True" else "False"
  | PyVal.pstr s => s

/-- Translation of the first output expression of the final TF step of
go_aggregate: `IN[7]=='.' and IN[13] or IN[7]` (`a` is IN[7], `b` is
IN[13]). -/
def coalesceChrom (a b : String) : String :=
  pyToStr (pyOr (pyAnd (PyVal.pb (a == ".")) (PyVal.pstr b)) (PyVal.pstr a))

/-- Translation of the second output expression (the three-way coalesce)
of the final TF step of go_aggregate:
`IN[10]=='.' and IN[16] or IN[16]=='.' and IN[10] or IN[16]==IN[10] and
IN[16] or '???'` (`a` is IN[10], the value attached by the earlier join;
`b` is IN[16], the value brought in by the bidirectional outer join). -/
def coalesceOther (a b : String) : String :=
  pyToStr (pyOr (pyOr (pyOr
    (pyAnd (PyVal.pb (a == ".")) (PyVal.pstr b))
    (pyAnd (PyVal.pb (b == ".")) (PyVal.pstr a)))
    (pyAnd (PyVal.pb (b == a)) (PyVal.pstr b)))
    (PyVal.pstr "???"))

/-- Counterexample to C3 as stated: on the row values a = "." (the
placeholder) and b = "" the claim's priority demands the non-placeholder
value b, but the and/or encoding falls through on the falsy empty string
and the expression yields the diagnostic marker instead. -/
theorem coalesce_empty_cex :
    coalesceOther "." "" = "???" ∧ ("" : String) ≠ "." ∧ "???" ≠ ("" : String) := by
  decide

/-- C3 (amended): for rows whose two id fields are non-empty strings, the
effective other-side value follows the claimed three-way coalesce: the
directly joined value when the other is the placeholder or agrees with
it, the outer-join value when the directly joined one is the placeholder,
and the fixed diagnostic marker `???` when both are non-placeholder and
disagree (when both are the placeholder, the placeholder propagates,
which the first case covers with b = "."). -/
theorem coalesce_spec (a b : String) (ha : a ≠ "") (hb : b ≠ "") :
    (a = "." → coalesceOther a b = b) ∧
    (a ≠ "." → b = "." → coalesceOther a b = a) ∧
    (a ≠ "." → b ≠ "." → b = a → coalesceOther a b = a) ∧
    (a ≠ "." → b ≠ "." → b ≠ a → coalesceOther a b = "???") := by
  refine ⟨?_, ?_, ?_, ?_⟩
  · intro h
    subst h
    simp [coalesceOther, pyAnd, pyOr, pyToStr, pyTruthy, hb]
  · intro h1 h2
    subst h2
    simp [coalesceOther, pyAnd, pyOr, pyToStr, pyTruthy, ha, h1]
  · intro h1 h2 h3
    subst h3
    simp [coalesceOther, pyAnd, pyOr, pyToStr, pyTruthy, ha, h1]
  · intro h1 h2 h3
    simp [coalesceOther, pyAnd, pyOr, pyToStr, pyTruthy, ha, hb, h1, h2, h3]

/-- Witness for C3's amended statement at concrete rows: a left-only row
keeps the directly joined value, a right-only row takes the outer-join
value, agreement keeps the common value, disagreement yields `???`. -/
theorem coalesce_spec_witness :
    coalesceOther "+" "." = "+" ∧ coalesceOther "." "-" = "-" ∧
    coalesceOther "+" "+" = "+" ∧ coalesceOther "+" "-" = "???" :=
  ⟨(coalesce_spec "+" "." (by decide) (by decide)).2.1 (by decide) rfl,
   (coalesce_spec "." "-" (by decide) (by decide)).1 rfl,
   (coalesce_spec "+" "+" (by decide) (by decide)).2.2.1 (by decide) (by decide) rfl,
   (coalesce_spec "+" "-" (by decide) (by decide)).2.2.2 (by decide) (by decide) (by decide)⟩

/-! ### The two pipelines

The fjoin overlap matcher (FJ) is an external collaborator (spec par. 4.3);
both pipelines pass it the two filtered inputs together with the
ignore-strand and minimum-overlap options, so it is taken as an oracle
parameter with exactly that interface. -/

/-- The option fields of gu.py that influence pipeline behaviour, after
parsing and grooming (the aggregation patterns already compiled; the ire
identifier patterns kept verbatim as the groomed option strings). -/
structure Opts where
  types1 : List String
  types2 : List String
  notTypes1 : List String
  notTypes2 : List String
  chrMatchLoose : Bool
  ignoreStrand : Bool
  noSelfHits : Bool
  minOverlap : String
  ire1 : String
  ire2 : String
  are1 : Pattern
  are2 : Pattern
  template : String

/-- Translation of the optional no-self-hits TF step of the no-aggregate
path (`?IN[10]!=IN[19]`): columns 10 and 19 of an overlap row are the two
joined records' attribute (id) columns. -/
def selfHitFilterNoAgg (enabled : Bool) (ps : List (Gff × Gff)) : List (Gff × Gff) :=
  if enabled then ps.filter (fun q => decide (q.1.attrs ≠ q.2.attrs)) else ps

/-- Translation of the optional no-self-hits TF step of the aggregate path
(`?IN[10] != IN[19]`): there, columns 10 and 19 are the two extracted id
columns. -/
def selfHitFilterAgg (enabled : Bool) (ps : List ((Feat × String) × (Feat × String))) :
    List ((Feat × String) × (Feat × String)) :=
  if enabled then ps.filter (fun q => decide (q.1.2 ≠ q.2.2)) else ps

/-- The bucketized result of a no-aggregate run: the log lines, the
labelled overlap rows (TB, TS, TP collapse to attaching each row its
bucket label), and the two anti-join buckets. -/
structure NoAggOut where
  logs : List String
  pairRows : List ((Gff × Gff) × String)
  oneZero : List Gff
  zeroOne : List Gff
deriving DecidableEq

/-- Translation of gu.py GUPipeline.go_noAggregate: select each input
(the TF step with chrMatchExpr runs only when type options are present),
find overlaps, optionally drop self hits, log — without aborting — when no
overlap was found, bucketize the rows by cluster label, and fill the
`1-0` and `0-1` buckets by anti-join.  Never exits. -/
def guNoAggregate (fj : Bool → String → List Gff → List Gff → List (Gff × Gff))
    (o : Opts) (rows1 rows2 : List Gff) : Except Int NoAggOut :=
  Except.ok
    { logs :=
        if (selfHitFilterNoAgg o.noSelfHits (fj o.ignoreStrand o.minOverlap
            (selectStep o.chrMatchLoose o.types1 o.notTypes1 rows1)
            (selectStep o.chrMatchLoose o.types2 o.notTypes2 rows2))).length = 0
        then ["No overlapping features detected.\n"] else []
      pairRows :=
        (selfHitFilterNoAgg o.noSelfHits (fj o.ignoreStrand o.minOverlap
            (selectStep o.chrMatchLoose o.types1 o.notTypes1 rows1)
            (selectStep o.chrMatchLoose o.types2 o.notTypes2 rows2))).map
          (fun q => (q, pairLabel Gff.attrs Gff.attrs
            (selfHitFilterNoAgg o.noSelfHits (fj o.ignoreStrand o.minOverlap
              (selectStep o.chrMatchLoose o.types1 o.notTypes1 rows1)
              (selectStep o.chrMatchLoose o.types2 o.notTypes2 rows2))) q))
      oneZero := tdLeft Gff.attrs
        (selectStep o.chrMatchLoose o.types1 o.notTypes1 rows1)
        (selfHitFilterNoAgg o.noSelfHits (fj o.ignoreStrand o.minOverlap
          (selectStep o.chrMatchLoose o.types1 o.notTypes1 rows1)
          (selectStep o.chrMatchLoose o.types2 o.notTypes2 rows2)))
      zeroOne := tdRight Gff.attrs
        (selectStep o.chrMatchLoose o.types2 o.notTypes2 rows2)
        (selfHitFilterNoAgg o.noSelfHits (fj o.ignoreStrand o.minOverlap
          (selectStep o.chrMatchLoose o.types1 o.notTypes1 rows1)
          (selectStep o.chrMatchLoose o.types2 o.notTypes2 rows2))) }

/-- Translation of the selection stage of fjbucketizer.py go_noAggregate:
like gu.py's but with no chromosome expression (fjbucketizer.py has no -C
option), so the TF step is a pure type filter, run only when a type
option is present (and the identity otherwise). -/
def fjbSelect (types notTypes : List String) (rows : List Gff) : List Gff :=
  if types.isEmpty && notTypes.isEmpty then rows
  else rows.filter (fun r => typePred types notTypes r.typ)

/-- Translation of fjbucketizer.py GUPipeline.go_noAggregate: identical
to gu.py's no-aggregate path except for the missing chromosome
expression; the zero-overlap condition is logged only (the historical
fatal exit is commented out in the source).  Never exits. -/
def fjbNoAggregate (fj : Bool → String → List Gff → List Gff → List (Gff × Gff))
    (o : Opts) (rows1 rows2 : List Gff) : Except Int NoAggOut :=
  Except.ok
    { logs :=
        if (selfHitFilterNoAgg o.noSelfHits (fj o.ignoreStrand o.minOverlap
            (fjbSelect o.types1 o.notTypes1 rows1)
            (fjbSelect o.types2 o.notTypes2 rows2))).length = 0
        then ["No overlapping features detected.\n"] else []
      pairRows :=
        (selfHitFilterNoAgg o.noSelfHits (fj o.ignoreStrand o.minOverlap
            (fjbSelect o.types1 o.notTypes1 rows1)
            (fjbSelect o.types2 o.notTypes2 rows2))).map
          (fun q => (q, pairLabel Gff.attrs Gff.attrs
            (selfHitFilterNoAgg o.noSelfHits (fj o.ignoreStrand o.minOverlap
              (fjbSelect o.types1 o.notTypes1 rows1)
              (fjbSelect o.types2 o.notTypes2 rows2))) q))
      oneZero := tdLeft Gff.attrs (fjbSelect o.types1 o.notTypes1 rows1)
        (selfHitFilterNoAgg o.noSelfHits (fj o.ignoreStrand o.minOverlap
          (fjbSelect o.types1 o.notTypes1 rows1)
          (fjbSelect o.types2 o.notTypes2 rows2)))
      zeroOne := tdRight Gff.attrs (fjbSelect o.types2 o.notTypes2 rows2)
        (selfHitFilterNoAgg o.noSelfHits (fj o.ignoreStrand o.minOverlap
          (fjbSelect o.types1 o.notTypes1 rows1)
          (fjbSelect o.types2 o.notTypes2 rows2))) }

/-- The aggregate-path selection of gu.py: filter by type, keep IN[1:9],
append the extracted id (extractID(IN[9], are)). -/
def aggSelect (are : Pattern) (types notTypes : List String) (rows : List Feat) :
    List (Feat × String) :=
  (rows.filter (fun r => typePred types notTypes r.typ)).map
    (fun r => (r, extractID are r.attrs))

/-- One aggregated overlap tally row: the two extracted ids and the two
base-feature overlap counts (TA -g10,19 -acount:5 -acount:14). -/
structure OvlGene where
  lid : String
  rid : String
  n1 : Nat
  n2 : Nat
deriving DecidableEq

/-- Modelled from the spec: the TA call aggregating overlapping feature
rows by the pair of extracted ids, counting the contributing base
feature rows (TableTools TA is not part of this repository's sources). -/
def pairTally (ovl : List ((Feat × String) × (Feat × String))) : List OvlGene :=
  ((ovl.map (fun q => (q.1.2, q.2.2))).dedup).filterMap (fun k =>
    if (ovl.filter (fun x => (x.1.2, x.2.2) == k)).isEmpty then none
    else some ⟨k.1, k.2, (ovl.filter (fun x => (x.1.2, x.2.2) == k)).length,
      (ovl.filter (fun x => (x.1.2, x.2.2) == k)).length⟩)

/-- Modelled from the spec: TJ right-outer equi-join (par. 6): matching
row pairs, plus every unmatched right row with a placeholder left side
(TableTools TJ is not part of this repository's sources). -/
def rightJoin {A B : Type} (t1 : List A) (t2 : List B)
    (j1 : A → String) (j2 : B → String) : List (Option A × B) :=
  t2.flatMap (fun b =>
    if (t1.filter (fun a => j1 a == j2 b)).isEmpty then [(none, b)]
    else (t1.filter (fun a => j1 a == j2 b)).map (fun a => (some a, b)))

/-- Modelled from the spec: TJ bidirectional outer equi-join (par. 6). -/
def bidiJoin {A B : Type} (t1 : List A) (t2 : List B)
    (j1 : A → String) (j2 : B → String) : List (Option A × Option B) :=
  t1.flatMap (fun a =>
    if (t2.filter (fun b => j2 b == j1 a)).isEmpty then [(some a, none)]
    else (t2.filter (fun b => j2 b == j1 a)).map (fun b => (some a, some b)))
  ++ (t2.filter (fun b => !(t1.any (fun a => j1 a == j2 b)))).map (fun b => (none, some b))

/-- The join key of a tmp1 row (its column 2: the right gene id of the
overlap tally, or the placeholder on a right-outer fill row). -/
def tmp1Key (row : Option OvlGene × Entity) : String :=
  match row.1 with
  | some og => og.rid
  | none => "."

/-- One row of the final formatted output (tmp3): the coalesced
chromosome and strand columns, the two gene id columns TB buckets on
(left id = output column 3, right id = output column 9), and the joined
data carried along. -/
structure FinalRow where
  chrom : String
  strand : String
  leftId : String
  rightId : String
  leftEnt : Option Entity
  rightEnt : Option Entity
  tally : Option OvlGene
deriving DecidableEq

/-- Translation of the final TF projection of go_aggregate applied to one
doubly outer-joined row. -/
def mkFinalRow (row : Option (Option OvlGene × Entity) × Option Entity) : FinalRow :=
  { chrom := coalesceChrom
      (match row.1 with | some p => p.2.chrom | none => ".")
      (match row.2 with | some e => e.chrom | none => ".")
    strand := coalesceOther
      (match row.1 with | some p => p.2.strand | none => ".")
      (match row.2 with | some e => e.strand | none => ".")
    leftId := match row.1 with | some p => p.2.eid | none => "."
    rightId := match row.2 with | some e => e.eid | none => "."
    leftEnt := match row.1 with | some p => some p.2 | none => none
    rightEnt := row.2
    tally := match row.1 with | some p => p.1 | none => none }

/-- The key pairs of the rows that carry both gene ids. -/
def aggKeyPairs (rows : List FinalRow) : List (String × String) :=
  (rows.filter (fun r => !(r.leftId == ".") && !(r.rightId == "."))).map
    (fun r => (r.leftId, r.rightId))

/-- Modelled from the spec: the TB call of the aggregate path buckets the
final rows on the two gene id columns with the null marker `.`: a row
whose left id is the placeholder belongs to `0-1`, one whose right id is
the placeholder to `1-0`, the rest to the bucket of their cluster. -/
def aggBucket (rows : List FinalRow) (row : FinalRow) : String :=
  if row.leftId = "." then "0-1"
  else if row.rightId = "." then "1-0"
  else nodeLabel (aggKeyPairs rows) (false, row.leftId)

/-- The bucketized result of an aggregate run. -/
structure AggOut where
  logs : List String
  rows : List (FinalRow × String)
deriving DecidableEq

/-- The shared tail of the two aggregate pipelines (textually identical in
gu.py and fjbucketizer.py): tally the overlap rows per id pair, right-outer
join with the left entities, bidirectionally outer join with the right
entities, apply the final coalescing projection, and bucket the rows. -/
def aggCore (ovl : List ((Feat × String) × (Feat × String)))
    (genes1 genes2 : List Entity) : List (FinalRow × String) :=
  ((bidiJoin (rightJoin (pairTally ovl) genes1 (fun og => og.lid) (fun e => e.eid))
      genes2 tmp1Key (fun e => e.eid)).map mkFinalRow).map
    (fun row => (row, aggBucket
      ((bidiJoin (rightJoin (pairTally ovl) genes1 (fun og => og.lid) (fun e => e.eid))
        genes2 tmp1Key (fun e => e.eid)).map mkFinalRow) row))

/-- Translation of gu.py GUPipeline.go_aggregate: select and extract ids,
aggregate each side into entities, find overlaps, optionally drop self
hits, log — without aborting — when no overlap was found, then run the
join/coalesce/bucket tail.  Never exits. -/
def guAggregate
    (fj : Bool → String → List (Feat × String) → List (Feat × String) →
      List ((Feat × String) × (Feat × String)))
    (o : Opts) (rows1 rows2 : List Feat) : Except Int AggOut :=
  Except.ok
    { logs :=
        if (selfHitFilterAgg o.noSelfHits (fj o.ignoreStrand o.minOverlap
            (aggSelect o.are1 o.types1 o.notTypes1 rows1)
            (aggSelect o.are2 o.types2 o.notTypes2 rows2))).length = 0
        then ["No overlapping features detected.\n"] else []
      rows := aggCore
        (selfHitFilterAgg o.noSelfHits (fj o.ignoreStrand o.minOverlap
          (aggSelect o.are1 o.types1 o.notTypes1 rows1)
          (aggSelect o.are2 o.types2 o.notTypes2 rows2)))
        (aggregate (aggSelect o.are1 o.types1 o.notTypes1 rows1))
        (aggregate (aggSelect o.are2 o.types2 o.notTypes2 rows2)) }

/-- The hard-coded gene id pattern of fjbucketizer.py go_aggregate:
`gene_?id *[=:]? *"?([^"; ]+)"?` (group 1 is the capture). -/
def fjbGenePat : Pattern :=
  { pre := RE.cat (strRE "gene") (RE.cat (RE.opt (chrRE '_')) (RE.cat (strRE "id")
      (RE.cat (RE.rep [' '] false) (RE.cat (RE.opt (RE.cls ['=', ':'] false))
        (RE.cat (RE.rep [' '] false) (RE.opt (chrRE '"')))))))
    grp := plusRE ['"', ';', ' '] true
    post := RE.opt (chrRE '"') }

/-- Translation of fjbucketizer.py's gene id extraction
`"GeneID:"+re.search(patt, IN[9], re.I).group(1)`: when the pattern does
not match, `re.search` returns None and `.group` raises; the top-level
`except` of fjbucketizer.py turns any exception into exit code -1. -/
def fjbExtract (attrs : String) : Except Int String :=
  match searchPat fjbGenePat attrs.toList with
  | some cap => Except.ok ("GeneID:" ++ String.mk cap)
  | none => Except.error (-1)

/-- Translation of the selection stage of fjbucketizer.py go_aggregate:
one filter `?len(types)==0 or string.lower(IN[3]) in types` (the
not-types options are ignored on this path), then IN[1:9] plus the
extracted gene id. -/
def fjbAggSelect (types : List String) (rows : List Feat) :
    Except Int (List (Feat × String)) :=
  (rows.filter (fun r => types.isEmpty || types.contains (strLower r.typ))).mapM
    (fun r => (fjbExtract r.attrs).map (fun i => (r, i)))

/-- Translation of fjbucketizer.py GUPipeline.go_aggregate: the same
pipeline shape as gu.py's, but with the hard-coded extraction pattern —
and the zero-overlap check terminates the pipeline with exit code -1
(`sys.exit(-1)`) instead of merely logging. -/
def fjbAggregate
    (fj : Bool → String → List (Feat × String) → List (Feat × String) →
      List ((Feat × String) × (Feat × String)))
    (o : Opts) (rows1 rows2 : List Feat) : Except Int AggOut := do
  let f1 ← fjbAggSelect o.types1 rows1
  let f2 ← fjbAggSelect o.types2 rows2
  let ovl := selfHitFilterAgg o.noSelfHits (fj o.ignoreStrand o.minOverlap f1 f2)
  if ovl.length = 0 then
    Except.error (-1)
  else
    Except.ok { logs := [], rows := aggCore ovl (aggregate f1) (aggregate f2) }

theorem count_filter_eq {α : Type} [BEq α] [LawfulBEq α] (l : List α) (p : α → Bool) (a : α) :
    (l.filter p).count a = if p a = true then l.count a else 0 := by
  by_cases ha : p a = true
  · rw [if_pos ha]
    induction l with
    | nil => rfl
    | cons b t ih =>
        by_cases hb : p b = true
        · rw [List.filter_cons_of_pos hb]
          rcases eq_or_ne a b with rfl | hab
          · rw [List.count_cons_self, List.count_cons_self, ih]
          · rw [List.count_cons_of_ne hab, List.count_cons_of_ne hab, ih]
        · rw [List.filter_cons_of_neg hb]
          rcases eq_or_ne a b with rfl | hab
          · exact absurd ha hb
          · rw [List.count_cons_of_ne hab, ih]
  · rw [if_neg ha]
    refine List.count_eq_zero.mpr ?_
    intro hmem
    exact ha (List.mem_filter.mp hmem).2

/-- C9: with the no-self-hits option on, an overlap row is removed exactly
when its left and right identifier columns are equal verbatim (stated by
occurrence count, on both the no-aggregate and the aggregate path); with
the option off nothing is removed; and the ire identifier-pattern options
play no role in either pipeline mode: two gu.py runs differing only in
ire1 and ire2 produce identical outputs. -/
theorem selfHit_filter_spec
    (fjN : Bool → String → List Gff → List Gff → List (Gff × Gff))
    (fjA : Bool → String → List (Feat × String) → List (Feat × String) →
      List ((Feat × String) × (Feat × String)))
    (o : Opts) (i1 i2 : String) (rows1 rows2 : List Gff) (frows1 frows2 : List Feat)
    (ps : List (Gff × Gff)) (q : Gff × Gff)
    (aps : List ((Feat × String) × (Feat × String)))
    (aq : (Feat × String) × (Feat × String)) :
    ((selfHitFilterNoAgg true ps).count q =
      if q.1.attrs = q.2.attrs then 0 else ps.count q) ∧
    selfHitFilterNoAgg false ps = ps ∧
    ((selfHitFilterAgg true aps).count aq =
      if aq.1.2 = aq.2.2 then 0 else aps.count aq) ∧
    selfHitFilterAgg false aps = aps ∧
    guNoAggregate fjN { o with ire1 := i1, ire2 := i2 } rows1 rows2 =
      guNoAggregate fjN o rows1 rows2 ∧
    guAggregate fjA { o with ire1 := i1, ire2 := i2 } frows1 frows2 =
      guAggregate fjA o frows1 frows2 := by
  refine ⟨?_, rfl, ?_, rfl, rfl, rfl⟩
  · rw [show selfHitFilterNoAgg true ps =
      ps.filter (fun q => decide (q.1.attrs ≠ q.2.attrs)) from rfl]
    rw [count_filter_eq]
    by_cases h : q.1.attrs = q.2.attrs
    · rw [if_pos h, if_neg (by simp [h])]
    · rw [if_neg h, if_pos (by simp [h])]
  · rw [show selfHitFilterAgg true aps =
      aps.filter (fun q => decide (q.1.2 ≠ q.2.2)) from rfl]
    rw [count_filter_eq]
    by_cases h : aq.1.2 = aq.2.2
    · rw [if_pos h, if_neg (by simp [h])]
    · rw [if_neg h, if_pos (by simp [h])]


/-- A sample aggregate-path record whose attributes column carries a
gene_id tag. -/
def featEx0 : Feat := ⟨"1", "exon", 100, 200, "+", "gene_id G1;"⟩

/-- A concrete option record with every list option empty and every flag
off (types and not-types unset, exact chromosome matching, strand
matching on, self hits kept, default patterns groomed). -/
def optsEx : Opts :=
  { types1 := [], types2 := [], notTypes1 := [], notTypes2 := []
    chrMatchLoose := false, ignoreStrand := false, noSelfHits := false
    minOverlap := "1", ire1 := "", ire2 := ""
    are1 := { pre := strRE "Parent=", grp := plusRE ['"', ';', ' '] true, post := RE.eps }
    are2 := { pre := strRE "Parent=", grp := plusRE ['"', ';', ' '] true, post := RE.eps }
    template := "bucket_%s.txt" }

/-- Witness for C9 at concrete rows: a self-hit pair is removed, a
non-self-hit pair is kept with its multiplicity. -/
theorem selfHit_filter_spec_witness :
    (selfHitFilterNoAgg true [(gffChr19, gffChr19)]).count (gffChr19, gffChr19) = 0 ∧
    (selfHitFilterAgg true [((featEx0, "A"), (featEx0, "B"))]).count
      ((featEx0, "A"), (featEx0, "B")) = 1 := by
  have h := selfHit_filter_spec (fun _ _ _ _ => []) (fun _ _ _ _ => []) optsEx "x" "y"
    [] [] [] [] [(gffChr19, gffChr19)] (gffChr19, gffChr19)
    [((featEx0, "A"), (featEx0, "B"))] ((featEx0, "A"), (featEx0, "B"))
  refine ⟨?_, ?_⟩
  · rw [h.1, if_pos rfl]
  · rw [h.2.2.1]
    decide

/-- C10: the loose-chromosome-matching flag (-C) has no effect in
aggregate mode: for any fixed inputs, overlap oracle and remaining
configuration, gu.py go_aggregate produces identical output with the
flag set or cleared — the chromosome-normalization expression is applied
only on the no-aggregate path, and no stage of the aggregate path reads
the flag. -/
theorem aggregate_ignores_chrMatchLoose
    (fjA : Bool → String → List (Feat × String) → List (Feat × String) →
      List ((Feat × String) × (Feat × String)))
    (o : Opts) (b : Bool) (rows1 rows2 : List Feat) :
    guAggregate fjA { o with chrMatchLoose := b } rows1 rows2 =
      guAggregate fjA o rows1 rows2 := rfl


theorem selfHitFilterNoAgg_nil (b : Bool) : selfHitFilterNoAgg b [] = [] := by
  cases b <;> rfl

theorem selfHitFilterAgg_nil (b : Bool) : selfHitFilterAgg b [] = [] := by
  cases b <;> rfl

theorem tdLeft_nil {α β κ : Type} [DecidableEq κ] (k1 : α → κ) (f1 : List α) :
    tdLeft k1 f1 ([] : List (α × β)) = f1 := by
  refine List.filter_eq_self.mpr ?_
  intro r _
  rw [decide_eq_true_iff]
  rintro ⟨q, hq, -⟩
  exact absurd hq (List.not_mem_nil q)

theorem tdRight_nil {α β κ : Type} [DecidableEq κ] (k2 : β → κ) (f2 : List β) :
    tdRight k2 f2 ([] : List (α × β)) = f2 := by
  refine List.filter_eq_self.mpr ?_
  intro r _
  rw [decide_eq_true_iff]
  rintro ⟨q, hq, -⟩
  exact absurd hq (List.not_mem_nil q)

theorem flatMap_eq_map {A C : Type} (f : A → List C) (g : A → C) :
    ∀ l : List A, (∀ b ∈ l, f b = [g b]) → l.flatMap f = l.map g := by
  intro l h
  induction l with
  | nil => rfl
  | cons b t ih =>
      rw [List.flatMap_cons, h b (List.mem_cons_self b t), List.map_cons,
        List.singleton_append, ih (fun x hx => h x (List.mem_cons_of_mem b hx))]

theorem rightJoin_nil {A B : Type} (t2 : List B) (j1 : A → String) (j2 : B → String) :
    rightJoin ([] : List A) t2 j1 j2 = t2.map (fun b => ((none : Option A), b)) :=
  flatMap_eq_map _ _ t2 (fun _ _ => rfl)

theorem bidiJoin_no_match {A B : Type} (t1 : List A) (t2 : List B) (j1 : A → String)
    (j2 : B → String) (h : ∀ a ∈ t1, ∀ b ∈ t2, ¬ j1 a = j2 b) :
    bidiJoin t1 t2 j1 j2 =
      t1.map (fun a => (some a, (none : Option B))) ++
        t2.map (fun b => ((none : Option A), some b)) := by
  unfold bidiJoin
  have hpart1 : t1.flatMap (fun a =>
      if (t2.filter (fun b => j2 b == j1 a)).isEmpty then [(some a, (none : Option B))]
      else (t2.filter (fun b => j2 b == j1 a)).map (fun b => (some a, some b))) =
      t1.map (fun a => (some a, (none : Option B))) := by
    refine flatMap_eq_map _ _ t1 ?_
    intro a ha
    have hfil : t2.filter (fun b => j2 b == j1 a) = [] := by
      refine List.filter_eq_nil_iff.mpr ?_
      intro b hb
      simp only [beq_iff_eq]
      exact fun hc => h a ha b hb hc.symm
    rw [hfil]
    rfl
  have hpart2 : t2.filter (fun b => !(t1.any (fun a => j1 a == j2 b))) = t2 := by
    refine List.filter_eq_self.mpr ?_
    intro b hb
    have : t1.any (fun a => j1 a == j2 b) = false := by
      rw [List.any_eq_false]
      intro a ha
      simp only [beq_iff_eq]
      exact h a ha b hb
    rw [this]
    rfl
  rw [hpart1, hpart2]

theorem aggregate_eid_ne {rs : List (Feat × String)} (h : ∀ x ∈ rs, x.2 ≠ ".") :
    ∀ e ∈ aggregate rs, e.eid ≠ "." := by
  intro e he
  have hmem : e.eid ∈ (aggregate rs).map Entity.eid := List.mem_map.mpr ⟨e, he, rfl⟩
  obtain ⟨x, hx, hxe⟩ := (aggregate_ids rs e.eid).mp hmem
  rw [← hxe]
  exact h x hx

theorem aggCore_zero_shape (genes1 genes2 : List Entity)
    (h1 : ∀ e ∈ genes1, e.eid ≠ ".") (h2 : ∀ e ∈ genes2, e.eid ≠ ".") :
    (∀ e ∈ genes1, ∃ row : FinalRow, (row, "1-0") ∈ aggCore [] genes1 genes2 ∧
      row.leftEnt = some e ∧ row.rightId = ".") ∧
    (∀ e ∈ genes2, ∃ row : FinalRow, (row, "0-1") ∈ aggCore [] genes1 genes2 ∧
      row.rightEnt = some e ∧ row.leftId = ".") := by
  have e1 : rightJoin (pairTally []) genes1 (fun og => og.lid) (fun e => e.eid) =
      genes1.map (fun e => ((none : Option OvlGene), e)) := by
    rw [show pairTally [] = [] from rfl]
    exact rightJoin_nil genes1 _ _
  have e2 : bidiJoin (genes1.map (fun e => ((none : Option OvlGene), e))) genes2
      tmp1Key (fun e => e.eid) =
      (genes1.map (fun e => ((none : Option OvlGene), e))).map
        (fun a => (some a, (none : Option Entity))) ++
      genes2.map (fun b => ((none : Option (Option OvlGene × Entity)), some b)) := by
    refine bidiJoin_no_match _ _ _ _ ?_
    intro a ha b hb
    obtain ⟨ea, -, rfl⟩ := List.mem_map.mp ha
    exact fun hc => h2 b hb (by rw [← hc]; rfl)
  have hcore : aggCore [] genes1 genes2 =
      (((genes1.map (fun e => ((none : Option OvlGene), e))).map
          (fun a => (some a, (none : Option Entity))) ++
        genes2.map (fun b => ((none : Option (Option OvlGene × Entity)), some b))).map
          mkFinalRow).map
        (fun row => (row, aggBucket
          (((genes1.map (fun e => ((none : Option OvlGene), e))).map
              (fun a => (some a, (none : Option Entity))) ++
            genes2.map (fun b => ((none : Option (Option OvlGene × Entity)), some b))).map
              mkFinalRow) row)) := by
    unfold aggCore
    rw [e1, e2]
  constructor
  · intro e he
    refine ⟨mkFinalRow (some ((none : Option OvlGene), e), (none : Option Entity)),
      ?_, rfl, rfl⟩
    rw [hcore]
    have hrow : mkFinalRow (some ((none : Option OvlGene), e), (none : Option Entity)) ∈
        (((genes1.map (fun e => ((none : Option OvlGene), e))).map
            (fun a => (some a, (none : Option Entity))) ++
          genes2.map (fun b => ((none : Option (Option OvlGene × Entity)), some b))).map
            mkFinalRow) := by
      refine List.mem_map.mpr ⟨(some ((none : Option OvlGene), e), (none : Option Entity)),
        ?_, rfl⟩
      refine List.mem_append.mpr (Or.inl ?_)
      exact List.mem_map.mpr ⟨((none : Option OvlGene), e),
        List.mem_map.mpr ⟨e, he, rfl⟩, rfl⟩
    refine List.mem_map.mpr ⟨_, hrow, ?_⟩
    have hbucket : aggBucket
        (((genes1.map (fun e => ((none : Option OvlGene), e))).map
            (fun a => (some a, (none : Option Entity))) ++
          genes2.map (fun b => ((none : Option (Option OvlGene × Entity)), some b))).map
            mkFinalRow)
        (mkFinalRow (some ((none : Option OvlGene), e), (none : Option Entity))) = "1-0" := by
      unfold aggBucket
      rw [if_neg (by exact h1 e he),
        if_pos (show (mkFinalRow (some ((none : Option OvlGene), e),
          (none : Option Entity))).rightId = "." from rfl)]
    rw [hbucket]
  · intro e he
    refine ⟨mkFinalRow ((none : Option (Option OvlGene × Entity)), some e), ?_, rfl, rfl⟩
    rw [hcore]
    have hrow : mkFinalRow ((none : Option (Option OvlGene × Entity)), some e) ∈
        (((genes1.map (fun e => ((none : Option OvlGene), e))).map
            (fun a => (some a, (none : Option Entity))) ++
          genes2.map (fun b => ((none : Option (Option OvlGene × Entity)), some b))).map
            mkFinalRow) := by
      refine List.mem_map.mpr ⟨((none : Option (Option OvlGene × Entity)), some e), ?_, rfl⟩
      exact List.mem_append.mpr (Or.inr (List.mem_map.mpr ⟨e, he, rfl⟩))
    refine List.mem_map.mpr ⟨_, hrow, ?_⟩
    have hbucket : aggBucket
        (((genes1.map (fun e => ((none : Option OvlGene), e))).map
            (fun a => (some a, (none : Option Entity))) ++
          genes2.map (fun b => ((none : Option (Option OvlGene × Entity)), some b))).map
            mkFinalRow)
        (mkFinalRow ((none : Option (Option OvlGene × Entity)), some e)) = "0-1" := by
      unfold aggBucket
      rw [if_pos (show (mkFinalRow ((none : Option (Option OvlGene × Entity)),
        some e)).leftId = "." from rfl)]
    rw [hbucket]

/-- C4 (amended): when the overlap matcher returns zero pairs, gu.py does
not abort in either mode — the condition is only logged, and the `1-0`
and `0-1` buckets still cover the inputs: on the no-aggregate path they
receive exactly the two filtered inputs, and on the aggregate path every
left entity appears in a `1-0` row and every right entity in a `0-1` row
(given that no extracted id collides with the null marker `.`); the
legacy fjbucketizer.py behaves the same in no-aggregate mode only — its
aggregate mode exits instead (see the counterexample). -/
theorem zero_overlap_nonfatal
    (fjN fjN2 : Bool → String → List Gff → List Gff → List (Gff × Gff))
    (fjA : Bool → String → List (Feat × String) → List (Feat × String) →
      List ((Feat × String) × (Feat × String)))
    (o : Opts) (rows1 rows2 : List Gff) (frows1 frows2 : List Feat)
    (hfjN : fjN o.ignoreStrand o.minOverlap
      (selectStep o.chrMatchLoose o.types1 o.notTypes1 rows1)
      (selectStep o.chrMatchLoose o.types2 o.notTypes2 rows2) = [])
    (hfjN2 : fjN2 o.ignoreStrand o.minOverlap
      (fjbSelect o.types1 o.notTypes1 rows1) (fjbSelect o.types2 o.notTypes2 rows2) = [])
    (hfjA : fjA o.ignoreStrand o.minOverlap
      (aggSelect o.are1 o.types1 o.notTypes1 frows1)
      (aggSelect o.are2 o.types2 o.notTypes2 frows2) = [])
    (hid1 : ∀ x ∈ aggSelect o.are1 o.types1 o.notTypes1 frows1, x.2 ≠ ".")
    (hid2 : ∀ x ∈ aggSelect o.are2 o.types2 o.notTypes2 frows2, x.2 ≠ ".") :
    guNoAggregate fjN o rows1 rows2 = Except.ok
      { logs := ["No overlapping features detected.\n"]
        pairRows := []
        oneZero := selectStep o.chrMatchLoose o.types1 o.notTypes1 rows1
        zeroOne := selectStep o.chrMatchLoose o.types2 o.notTypes2 rows2 } ∧
    fjbNoAggregate fjN2 o rows1 rows2 = Except.ok
      { logs := ["No overlapping features detected.\n"]
        pairRows := []
        oneZero := fjbSelect o.types1 o.notTypes1 rows1
        zeroOne := fjbSelect o.types2 o.notTypes2 rows2 } ∧
    (∃ out : AggOut, guAggregate fjA o frows1 frows2 = Except.ok out ∧
      out.logs = ["No overlapping features detected.\n"] ∧
      (∀ e ∈ aggregate (aggSelect o.are1 o.types1 o.notTypes1 frows1),
        ∃ row : FinalRow, (row, "1-0") ∈ out.rows ∧
          row.leftEnt = some e ∧ row.rightId = ".") ∧
      (∀ e ∈ aggregate (aggSelect o.are2 o.types2 o.notTypes2 frows2),
        ∃ row : FinalRow, (row, "0-1") ∈ out.rows ∧
          row.rightEnt = some e ∧ row.leftId = ".")) := by
  refine ⟨?_, ?_, ?_⟩
  · unfold guNoAggregate
    rw [hfjN, selfHitFilterNoAgg_nil, tdLeft_nil, tdRight_nil]
    rfl
  · unfold fjbNoAggregate
    rw [hfjN2, selfHitFilterNoAgg_nil, tdLeft_nil, tdRight_nil]
    rfl
  · have hsh := aggCore_zero_shape
      (aggregate (aggSelect o.are1 o.types1 o.notTypes1 frows1))
      (aggregate (aggSelect o.are2 o.types2 o.notTypes2 frows2))
      (aggregate_eid_ne hid1) (aggregate_eid_ne hid2)
    refine ⟨{ logs := ["No overlapping features detected.\n"]
              rows := aggCore []
                (aggregate (aggSelect o.are1 o.types1 o.notTypes1 frows1))
                (aggregate (aggSelect o.are2 o.types2 o.notTypes2 frows2)) },
      ?_, rfl, hsh.1, hsh.2⟩
    unfold guAggregate
    rw [hfjA, selfHitFilterAgg_nil]
    rfl

/-- Witness for C4's amended statement at a concrete zero-overlap run:
both gu.py modes return normally, with the no-aggregate `1-0` bucket
holding the whole left input. -/
theorem zero_overlap_nonfatal_witness :
    guNoAggregate (fun _ _ _ _ => []) optsEx [gffChr19] [] = Except.ok
      { logs := ["No overlapping features detected.\n"]
        pairRows := []
        oneZero := [gffChr19]
        zeroOne := [] } ∧
    (∃ out : AggOut, guAggregate (fun _ _ _ _ => []) optsEx [featEx0] [] = Except.ok out ∧
      out.logs = ["No overlapping features detected.\n"]) := by
  have h := zero_overlap_nonfatal (fun _ _ _ _ => []) (fun _ _ _ _ => [])
    (fun _ _ _ _ => []) optsEx [gffChr19] [] [featEx0] [] rfl rfl rfl
    (by decide) (by decide)
  refine ⟨h.1, ?_⟩
  obtain ⟨out, ho, hlogs, -, -⟩ := h.2.2
  exact ⟨out, ho, hlogs⟩

/-- Counterexample to C4 as stated: in fjbucketizer.py's aggregate mode a
zero-overlap run is fatal — with an overlap oracle returning no pairs the
pipeline terminates with exit code -1 instead of proceeding. -/
theorem fjb_zero_overlap_exit :
    fjbAggregate (fun _ _ _ _ => []) optsEx [featEx0] [featEx0] = Except.error (-1) := rfl
